import Mathlib

/-!
Verification of `slammer.go`: the dispatcher loop of `main`, the worker
`startWorker`, and the process they form over the work queue, the result
channel and the wait group.

Modelling conventions
* Text (standard input, statements) is a `List Char`; the reader only ever
  fails with `io.EOF` (standard input is a finite text).
* Go `int` counters and `time.Duration` values are unbounded `Int`s: a counter
  that is incremented once per statement cannot reach `2^63`.
* In `startWorker`, `time.Now()` is a stream of readings `clock : Nat → Int`;
  the `k`-th call returns `clock k`.
* `startWorker` takes its channels as parameters: as a function, it is given
  the statements it receives and, for each, the answer of the non-blocking read
  of `sc` and the outcome of `db.Exec`.
* In the process, `sc` is the channel that `startWorkers` makes: it has no
  buffer, `os/signal` sends on it without blocking, and the worker reads it
  without blocking, so a signal is never handed over and an interrupt leaves
  the state as it is.
* In the process, the three final statements of a worker
  (`r.end = time.Now(); oc <- r; done.Done()`) are one step, enabled when the
  result channel has room; the invariant shows that it always has.
-/

namespace Slammer

/-! ## Library functions used by `main` -/

/-- `strings.TrimRight(s, cutset)`: `s` without its trailing run of
characters that belong to `cutset`. -/
def TrimRight (s cutset : List Char) : List Char :=
  (s.reverse.dropWhile (fun c => decide (c ∈ cutset))).reverse

/-- `(*bufio.Reader).ReadString(delim)` on the unread text: the data up to and
including the first `delim`, or the whole remaining text together with
`io.EOF` when there is no `delim`. Returns `(data, err == io.EOF, unread)`. -/
def ReadString (delim : Char) : List Char → List Char × Bool × List Char
  | [] => ([], true, [])
  | c :: cs =>
    if c = delim then ([c], false, cs)
    else
      let r := ReadString delim cs
      (c :: r.1, r.2.1, r.2.2)

/-! ## The dispatcher loop of `main` (lines 65-84) -/

/-- Effects of the dispatcher that are visible outside `main`. -/
inductive DEffect where
  | push (line : List Char)
  | logEOF
  | close
  deriving DecidableEq, Repr

/-- Local variables of `main` around the read loop. -/
structure DState where
  stdin : List Char
  errEOF : Bool
  totalWorkCount : Int
  trace : List DEffect
  deriving DecidableEq, Repr

/-- The loop `for err != io.EOF { ... }`; `none` when the fuel runs out. -/
def readLoop (debugMode : Bool) : Nat → DState → Option DState
  | 0, st => if st.errEOF then some st else none
  | fuel + 1, st =>
    if st.errEOF then some st
    else
      let rd := ReadString '\n' st.stdin
      if rd.2.1 = false then
        readLoop debugMode fuel
          { stdin := rd.2.2, errEOF := false,
            totalWorkCount := st.totalWorkCount + 1,
            trace := st.trace ++ [DEffect.push (TrimRight rd.1 ['\r', '\n'])] }
      else
        readLoop debugMode fuel
          { stdin := rd.2.2, errEOF := true,
            totalWorkCount := st.totalWorkCount,
            trace := st.trace ++ (if debugMode then [DEffect.logEOF] else []) }

/-- Lines 65-84 of `main`: warm up `err`, `line`, `totalWorkCount`, run the read
loop over standard input and close the work queue. -/
def main (debugMode : Bool) (input : List Char) : Option DState :=
  (readLoop debugMode (input.length + 1)
      { stdin := input, errEOF := false, totalWorkCount := 0, trace := [] }).map
    (fun st => { st with trace := st.trace ++ [DEffect.close] })

/-- The statements pushed onto the work queue, in order. -/
def pushed : List DEffect → List (List Char)
  | [] => []
  | DEffect.push l :: es => l :: pushed es
  | _ :: es => pushed es

/-! ### The lines of a text, in the words of the specification -/

/-- Trailing line-terminator characters removed. -/
def stripTerminators (l : List Char) : List Char :=
  (l.reverse.dropWhile (fun c => c = '\r' || c = '\n')).reverse

/-- The lines of a text with their terminators, where a non-empty final
segment without a newline is also a line; `cur` is the line being read. -/
def rawLines : List Char → List Char → List (List Char)
  | [], cur => if cur = [] then [] else [cur]
  | c :: cs, cur =>
    if c = '\n' then (cur ++ [c]) :: rawLines cs [] else rawLines cs (cur ++ [c])

/-- The newline-terminated lines of a text with their terminators; a final
segment without a newline is left out. -/
def rawTerminatedLines : List Char → List Char → List (List Char)
  | [], _ => []
  | c :: cs, cur =>
    if c = '\n' then (cur ++ [c]) :: rawTerminatedLines cs []
    else rawTerminatedLines cs (cur ++ [c])

/-- Every line of the text, terminators stripped. -/
def specLines (input : List Char) : List (List Char) :=
  (rawLines input []).map stripTerminators

/-- Every newline-terminated line of the text, terminators stripped. -/
def specTerminatedLines (input : List Char) : List (List Char) :=
  (rawTerminatedLines input []).map stripTerminators

/-! ## The worker: `startWorker` (lines 118-157) -/

/-- The struct `result`; the field `end` is written `end_`. -/
structure result where
  start : Int
  end_ : Int
  dbTime : Int
  workCount : Int
  errors : Int
  deriving DecidableEq, Repr

/-- Effects of a worker that are visible outside `startWorker`. -/
inductive Effect where
  | exec (line : List Char)
  | logErr (workerNum : Nat) (line : List Char)
  | sleep (d : Int)
  | send (r : result)
  | done
  deriving DecidableEq, Repr

/-- The value `result{start: time.Now()}` for the clock reading `t`. -/
def result.new (t : Int) : result :=
  { start := t, end_ := 0, dbTime := 0, workCount := 0, errors := 0 }

/-- Lines 138-143 on the record: `r.dbTime += time.Since(t)`, `r.workCount++`
and, when `err != nil`, `r.errors++`. -/
def result.afterExec (r : result) (elapsed : Int) (failed : Bool) : result :=
  let r1 := { r with dbTime := r.dbTime + elapsed }
  let r2 := { r1 with workCount := r1.workCount + 1 }
  if failed then { r2 with errors := r2.errors + 1 } else r2

/-- Lines 137-150 as effects: the call of `db.Exec`, then the debug log of a
failure, or the sleep after a success. -/
def bodyEffects (workerNum : Nat) (pause : Int) (debugMode : Bool)
    (line : List Char) (failed : Bool) : List Effect :=
  if failed then
    Effect.exec line :: (if debugMode then [Effect.logErr workerNum line] else [])
  else
    [Effect.exec line, Effect.sleep pause]

/-- One statement received from the work queue, with what the environment
answers while the worker handles it. -/
structure Item where
  /-- the statement -/
  line : List Char
  /-- the select finds a signal on `sc` -/
  sig : Bool
  /-- `db.Exec` returns `err != nil` -/
  failed : Bool
  deriving DecidableEq, Repr

/-- Local state of `startWorker`: the record, the number of clock readings
made so far, and the effects performed so far. -/
structure WState where
  r : result
  reads : Nat
  trace : List Effect
  deriving DecidableEq, Repr

/-- The three statements `r.end = time.Now(); oc <- r; done.Done()`
(lines 129-131 and lines 154-156). -/
def emit (clock : Nat → Int) (st : WState) : WState :=
  let r1 := { st.r with end_ := clock st.reads }
  { r := r1, reads := st.reads + 1, trace := st.trace ++ [Effect.send r1, Effect.done] }

/-- Lines 136-150: one execution. `t := time.Now()` is the reading `reads`,
`time.Since(t)` uses the reading `reads + 1`. -/
def body (workerNum : Nat) (pause : Int) (debugMode : Bool) (clock : Nat → Int)
    (st : WState) (it : Item) : WState :=
  let t := clock st.reads
  let elapsed := clock (st.reads + 1) - t
  { r := st.r.afterExec elapsed it.failed,
    reads := st.reads + 2,
    trace := st.trace ++ bodyEffects workerNum pause debugMode it.line it.failed }

/-- The loop `for line := range ic` over the statements the worker receives
before the queue is closed. The flag is `true` when the loop was left through
the `return` of the signal case. -/
def rangeLoop (workerNum : Nat) (pause : Int) (debugMode : Bool) (clock : Nat → Int) :
    WState → List Item → WState × Bool
  | st, [] => (st, false)
  | st, it :: rest =>
    if it.sig then (emit clock st, true)
    else rangeLoop workerNum pause debugMode clock (body workerNum pause debugMode clock st it) rest

/-- The state in which the loop is entered: `r := result{start: time.Now()}`. -/
def startState (clock : Nat → Int) : WState :=
  { r := result.new (clock 0), reads := 1, trace := [] }

/-- The function `startWorker`: the record is prepared, the loop runs, and
unless the signal case returned, lines 154-156 follow. -/
def startWorker (workerNum : Nat) (pause : Int) (debugMode : Bool) (clock : Nat → Int)
    (items : List Item) : WState :=
  let out := rangeLoop workerNum pause debugMode clock (startState clock) items
  if out.2 then out.1 else emit clock out.1

/-- The results a worker has sent on the result channel. -/
def emitted : List Effect → List result
  | [] => []
  | Effect.send r :: es => r :: emitted es
  | _ :: es => emitted es

/-- The statements a worker has passed to `db.Exec`, in order. -/
def execs : List Effect → List (List Char)
  | [] => []
  | Effect.exec l :: es => l :: execs es
  | _ :: es => execs es

/-- The durations a worker has slept, in order. -/
def sleeps : List Effect → List Int
  | [] => []
  | Effect.sleep d :: es => d :: sleeps es
  | _ :: es => sleeps es

/-- Number of calls of `done.Done()`. -/
def dones : List Effect → Nat
  | [] => 0
  | Effect.done :: es => dones es + 1
  | _ :: es => dones es

/-- The statements received before the first one whose signal check fires:
the ones the loop executes. -/
def executed : List Item → List Item
  | [] => []
  | it :: rest => if it.sig then [] else it :: executed rest

/-- Elapsed time of the `i`-th execution of a worker: the clock is read once
at birth and twice around every execution. -/
def elapsedAt (clock : Nat → Int) (i : Nat) : Int :=
  clock (2 * i + 2) - clock (2 * i + 1)

/-! ## The whole process: dispatcher, workers, channels -/

/-- Where a worker goroutine stands. -/
inductive WPhase where
  /-- spawned, `r` not yet initialised -/
  | born
  /-- blocked in `for line := range ic` -/
  | ranging
  /-- holds `line`, at the `select` -/
  | selecting (line : List Char)
  /-- holds `line`, past the `select`, in lines 136-150 -/
  | executing (line : List Char)
  /-- returned -/
  | terminated
  deriving DecidableEq, Repr

/-- A worker goroutine. `sig` says that the case `<-sc` of its `select` is
ready. Its signal channel `sc` is made without buffer (line 111), so the case
is ready only while a sender waits in a send on `sc`; `os/signal` never waits,
and no step sets `sig`. -/
structure Worker where
  phase : WPhase
  r : result
  sig : Bool
  trace : List Effect
  deriving DecidableEq, Repr

/-- Where `main` stands. -/
inductive DPhase where
  /-- at `input.ReadString` -/
  | reading
  /-- blocked in `inputChan <- line` -/
  | pushing (line : List Char)
  /-- left the read loop, before `close(inputChan)` -/
  | closing
  /-- in `wg.Wait()` -/
  | waiting
  /-- in the report loop with loop variable `i` -/
  | reporting (i : Nat)
  /-- after `close(outputChan)` -/
  | finished
  deriving DecidableEq, Repr

/-- The state of the process. `execLog` records every finished call of
`db.Exec` with its outcome (`true` for a failure). -/
structure Sys where
  workerCount : Nat
  pause : Int
  debugMode : Bool
  stdin : List Char
  dphase : DPhase
  totalWorkCount : Int
  dtrace : List DEffect
  closed : Bool
  workers : List Worker
  outputChan : List result
  wg : Int
  received : List result
  execLog : List (List Char × Bool)
  deriving DecidableEq, Repr

/-- The steps of the process. Clock readings and the outcome of `db.Exec` come
with the step; `interrupt` is the arrival of the interrupt signal at the
process. -/
inductive Event where
  | interrupt
  | dRead
  | dPush (i : Nat)
  | dClose
  | dWait
  | dRecv
  | dFinish
  | wBorn (i : Nat) (t : Int)
  | wSelect (i : Nat) (t : Int)
  | wExec (i : Nat) (elapsed : Int) (failed : Bool)
  | wExit (i : Nat) (t : Int)
  deriving DecidableEq, Repr

/-- The state after `startWorkers`: `cfg.workers` goroutines spawned, the
wait group at `cfg.workers`, both channels empty. -/
def init (workerCount : Nat) (pause : Int) (debugMode : Bool) (input : List Char) : Sys :=
  { workerCount := workerCount, pause := pause, debugMode := debugMode,
    stdin := input, dphase := DPhase.reading, totalWorkCount := 0, dtrace := [],
    closed := false,
    workers := List.replicate workerCount
      { phase := WPhase.born, r := result.new 0, sig := false, trace := [] },
    outputChan := [], wg := workerCount, received := [], execLog := [] }

/-- Worker `i` runs `r.end = time.Now(); oc <- r; done.Done()` and returns.
The send needs room in the result channel, whose capacity is `cfg.workers`. -/
def terminate (s : Sys) (i : Nat) (w : Worker) (t : Int) : Option Sys :=
  if s.outputChan.length < s.workerCount then
    let r1 := { w.r with end_ := t }
    some { s with
      workers := s.workers.set i
        { phase := WPhase.terminated, r := r1, sig := w.sig,
          trace := w.trace ++ [Effect.send r1, Effect.done] },
      outputChan := s.outputChan ++ [r1],
      wg := s.wg - 1 }
  else none

/-- One step of the process; `none` when the step is not enabled. -/
def step (s : Sys) : Event → Option Sys
  | Event.interrupt =>
    -- `os/signal` offers the signal to every registered channel in a send that
    -- does not block. A send on the unbuffered `sc` goes through only when the
    -- worker waits in a receive on `sc`; a worker only polls `sc` in a `select`
    -- with `default`, so no worker ever waits there and the signal is dropped.
    some s
  | Event.dRead =>
    match s.dphase with
    | DPhase.reading =>
      let rd := ReadString '\n' s.stdin
      if rd.2.1 = false then
        some { s with stdin := rd.2.2,
                      dphase := DPhase.pushing (TrimRight rd.1 ['\r', '\n']) }
      else
        some { s with stdin := rd.2.2, dphase := DPhase.closing,
                      dtrace := s.dtrace ++ (if s.debugMode then [DEffect.logEOF] else []) }
    | _ => none
  | Event.dPush i =>
    match s.dphase, s.workers[i]? with
    | DPhase.pushing line, some w =>
      if w.phase = WPhase.ranging then
        some { s with
          workers := s.workers.set i { w with phase := WPhase.selecting line },
          dphase := DPhase.reading,
          totalWorkCount := s.totalWorkCount + 1,
          dtrace := s.dtrace ++ [DEffect.push line] }
      else none
    | _, _ => none
  | Event.dClose =>
    match s.dphase with
    | DPhase.closing =>
      some { s with closed := true, dphase := DPhase.waiting,
                    dtrace := s.dtrace ++ [DEffect.close] }
    | _ => none
  | Event.dWait =>
    match s.dphase with
    | DPhase.waiting => if s.wg = 0 then some { s with dphase := DPhase.reporting 0 } else none
    | _ => none
  | Event.dRecv =>
    match s.dphase, s.outputChan with
    | DPhase.reporting i, r :: rest =>
      if i < s.workerCount then
        some { s with outputChan := rest, received := s.received ++ [r],
                      dphase := DPhase.reporting (i + 1) }
      else none
    | _, _ => none
  | Event.dFinish =>
    match s.dphase with
    | DPhase.reporting i =>
      if i < s.workerCount then none else some { s with dphase := DPhase.finished }
    | _ => none
  | Event.wBorn i t =>
    match s.workers[i]? with
    | some w =>
      if w.phase = WPhase.born then
        some { s with
          workers := s.workers.set i { w with phase := WPhase.ranging, r := result.new t } }
      else none
    | none => none
  | Event.wSelect i t =>
    match s.workers[i]? with
    | some w =>
      match w.phase with
      | WPhase.selecting line =>
        if w.sig then terminate s i { w with sig := false } t
        else some { s with workers := s.workers.set i { w with phase := WPhase.executing line } }
      | _ => none
    | none => none
  | Event.wExec i elapsed failed =>
    match s.workers[i]? with
    | some w =>
      match w.phase with
      | WPhase.executing line =>
        some { s with
          workers := s.workers.set i
            { w with phase := WPhase.ranging,
                     r := w.r.afterExec elapsed failed,
                     trace := w.trace ++ bodyEffects i s.pause s.debugMode line failed },
          execLog := s.execLog ++ [(line, failed)] }
      | _ => none
    | none => none
  | Event.wExit i t =>
    match s.workers[i]? with
    | some w =>
      if w.phase = WPhase.ranging ∧ s.closed = true then terminate s i w t else none
    | none => none

/-- A run: the steps of a list, one after the other. -/
def run (s : Sys) : List Event → Option Sys
  | [] => some s
  | e :: es => (step s e).bind (fun s1 => run s1 es)

/-- A step of the dispatcher or of a worker (not of the environment). -/
def Event.isProcess : Event → Bool
  | Event.interrupt => false
  | _ => true

/-- Whether `main` is past `close(inputChan)`. -/
def DPhase.afterClose : DPhase → Bool
  | DPhase.waiting => true
  | DPhase.reporting _ => true
  | DPhase.finished => true
  | _ => false

/-- Steps a worker can still make before it needs a new statement. -/
def WPhase.weight : WPhase → Nat
  | WPhase.born => 2
  | WPhase.ranging => 1
  | WPhase.selecting _ => 3
  | WPhase.executing _ => 2
  | WPhase.terminated => 0

/-- Rank of the position of `main`, for `n` workers. -/
def DPhase.weight (n : Nat) : DPhase → Nat
  | DPhase.reading => n + 4
  | DPhase.pushing _ => n + 5
  | DPhase.closing => n + 3
  | DPhase.waiting => n + 2
  | DPhase.reporting i => (n - i) + 1
  | DPhase.finished => 0

/-- A bound on the number of steps of `main` and the workers that can still
follow: every such step lowers it. -/
def stepsLeft (s : Sys) : Nat :=
  3 * (2 * s.stdin.length + s.dphase.weight s.workerCount)
    + (s.workers.map (fun w => w.phase.weight)).sum

/-- The statement a worker has received and not yet passed to `db.Exec`. -/
def Worker.held (w : Worker) : List (List Char) :=
  match w.phase with
  | WPhase.selecting line => [line]
  | WPhase.executing line => [line]
  | _ => []

/-- Number of workers that have returned. -/
def terminatedCount (ws : List Worker) : Nat :=
  (ws.map (fun w => if w.phase = WPhase.terminated then 1 else 0)).sum

/-- What holds in every state of every run. -/
structure Inv (s : Sys) : Prop where
  len : s.workers.length = s.workerCount
  traces : ∀ w ∈ s.workers,
    (w.phase = WPhase.terminated → emitted w.trace = [w.r] ∧ dones w.trace = 1) ∧
    (w.phase ≠ WPhase.terminated → emitted w.trace = [] ∧ dones w.trace = 0)
  born : ∀ w ∈ s.workers, w.phase = WPhase.born → w.r = result.new 0
  wg : s.wg = (s.workerCount : Int) - (terminatedCount s.workers : Int)
  count : s.received.length + s.outputChan.length = terminatedCount s.workers
  sums : ∀ f : result → Int,
    ((s.received ++ s.outputChan).map f).sum
      = (s.workers.map (fun w => if w.phase = WPhase.terminated then f w.r else 0)).sum
  pre : (∀ i, s.dphase ≠ DPhase.reporting i) → s.dphase ≠ DPhase.finished → s.received = []
  rep : ∀ i, s.dphase = DPhase.reporting i →
    s.received.length = i ∧ terminatedCount s.workers = s.workerCount
  fin : s.dphase = DPhase.finished →
    s.received.length = s.workerCount ∧ terminatedCount s.workers = s.workerCount
  work : (s.workers.map (fun w => w.r.workCount)).sum = s.execLog.length
  errs : (s.workers.map (fun w => w.r.errors)).sum = s.execLog.countP (fun x => x.2)
  total : s.totalWorkCount = (pushed s.dtrace).length
  records : Multiset.ofList (s.received ++ s.outputChan)
    = (s.workers.map (fun w =>
        if w.phase = WPhase.terminated then ({w.r} : Multiset result) else 0)).sum

/-- What also holds in every state of every run: no signal channel is ready,
the queue is closed exactly when `main` is past `close(inputChan)`, no worker
has returned before that, and the pushed statements are the executed ones
together with the ones the workers hold. -/
structure Clean (s : Sys) : Prop where
  nosig : ∀ w ∈ s.workers, w.sig = false
  closedEq : s.closed = s.dphase.afterClose
  opened : s.closed = false → ∀ w ∈ s.workers, w.phase ≠ WPhase.terminated
  held : Multiset.ofList (s.execLog.map Prod.fst)
      + (s.workers.map (fun w => Multiset.ofList w.held)).sum
    = Multiset.ofList (pushed s.dtrace)

/-- The statements `main` has still to push: the one it holds and those of
the unread text. -/
def DPhase.toPush (stdin : List Char) : DPhase → List (List Char)
  | DPhase.reading => specTerminatedLines stdin
  | DPhase.pushing line => line :: specTerminatedLines stdin
  | _ => []

/-- The statements pushed so far and those still to push are the
newline-terminated lines of the input. -/
def Dispatched (input : List Char) (s : Sys) : Prop :=
  specTerminatedLines input = pushed s.dtrace ++ s.dphase.toPush s.stdin

/-- Ten statements `a` .. `j`, one per line. -/
def tenLines : List Char :=
  "a\nb\nc\nd\ne\nf\ng\nh\ni\nj\n".toList

/-- The steps for one statement with a single worker: `main` reads and pushes
it, the worker passes the `select` and executes it. -/
def oneStatement : List Event :=
  [Event.dRead, Event.dPush 0, Event.wSelect 0 0, Event.wExec 0 1 false]

/-- A run of one worker over `tenLines` up to the end of `main`: two statements
are dispatched and executed, the interrupt arrives, and the run goes on. -/
def completedRun : List Event :=
  [Event.wBorn 0 0] ++ oneStatement ++ oneStatement ++ [Event.interrupt]
    ++ oneStatement ++ oneStatement ++ oneStatement ++ oneStatement
    ++ oneStatement ++ oneStatement ++ oneStatement ++ oneStatement
    ++ [Event.dRead, Event.dClose, Event.wExit 0 20, Event.dWait, Event.dRecv, Event.dFinish]

/-- A run of two workers over the single statement `a` up to the end of
`main`; the second worker executes the statement. -/
def reportRun : List Event :=
  [Event.wBorn 0 0, Event.wBorn 1 1,
   Event.dRead, Event.dPush 1, Event.wSelect 1 2, Event.wExec 1 3 false,
   Event.dRead, Event.dClose, Event.wExit 1 7, Event.wExit 0 8,
   Event.dWait, Event.dRecv, Event.dRecv, Event.dFinish]

/-- Four statements `a`, `x`, `b`, `y`, one per line. -/
def fourLines : List Char :=
  "a\nx\nb\ny\n".toList

/-- A run of two workers over `fourLines` without interrupt, up to the end of
`main`: the executions of `x` and `y` fail. -/
def scenarioRun : List Event :=
  [Event.wBorn 0 0, Event.wBorn 1 0,
   Event.dRead, Event.dPush 0, Event.dRead, Event.dPush 1,
   Event.wSelect 0 0, Event.wSelect 1 0, Event.wExec 0 1 false, Event.wExec 1 1 true,
   Event.dRead, Event.dPush 1, Event.wSelect 1 0, Event.wExec 1 2 false,
   Event.dRead, Event.dPush 0, Event.wSelect 0 0, Event.wExec 0 1 true,
   Event.dRead, Event.dClose, Event.wExit 0 9, Event.wExit 1 9,
   Event.dWait, Event.dRecv, Event.dRecv, Event.dFinish]

/-- The state reached by `scenarioRun`. -/
def scenarioFinal : Sys :=
  { workerCount := 2, pause := 0, debugMode := false, stdin := [],
    dphase := DPhase.finished, totalWorkCount := 4,
    dtrace := [DEffect.push ['a'], DEffect.push ['x'], DEffect.push ['b'], DEffect.push ['y'],
               DEffect.close],
    closed := true,
    workers :=
      [{ phase := WPhase.terminated,
         r := { start := 0, end_ := 9, dbTime := 2, workCount := 2, errors := 1 },
         sig := false,
         trace := [Effect.exec ['a'], Effect.sleep 0, Effect.exec ['y'],
                   Effect.send { start := 0, end_ := 9, dbTime := 2, workCount := 2, errors := 1 },
                   Effect.done] },
       { phase := WPhase.terminated,
         r := { start := 0, end_ := 9, dbTime := 3, workCount := 2, errors := 1 },
         sig := false,
         trace := [Effect.exec ['x'], Effect.exec ['b'], Effect.sleep 0,
                   Effect.send { start := 0, end_ := 9, dbTime := 3, workCount := 2, errors := 1 },
                   Effect.done] }],
    outputChan := [], wg := 0,
    received := [{ start := 0, end_ := 9, dbTime := 2, workCount := 2, errors := 1 },
                 { start := 0, end_ := 9, dbTime := 3, workCount := 2, errors := 1 }],
    execLog := [(['a'], false), (['x'], true), (['b'], false), (['y'], true)] }

/-- The state reached by `completedRun`: `main` is finished and has received
the record of the worker, which executed all ten statements. -/
def completedFinal : Sys :=
  { workerCount := 1, pause := 0, debugMode := false, stdin := [],
    dphase := DPhase.finished, totalWorkCount := 10,
    dtrace := [DEffect.push ['a'], DEffect.push ['b'], DEffect.push ['c'], DEffect.push ['d'],
               DEffect.push ['e'], DEffect.push ['f'], DEffect.push ['g'], DEffect.push ['h'],
               DEffect.push ['i'], DEffect.push ['j'],
               DEffect.close],
    closed := true,
    workers :=
      [{ phase := WPhase.terminated,
         r := { start := 0, end_ := 20, dbTime := 10, workCount := 10, errors := 0 },
         sig := false,
         trace := [Effect.exec ['a'], Effect.sleep 0, Effect.exec ['b'], Effect.sleep 0,
                   Effect.exec ['c'], Effect.sleep 0, Effect.exec ['d'], Effect.sleep 0,
                   Effect.exec ['e'], Effect.sleep 0, Effect.exec ['f'], Effect.sleep 0,
                   Effect.exec ['g'], Effect.sleep 0, Effect.exec ['h'], Effect.sleep 0,
                   Effect.exec ['i'], Effect.sleep 0, Effect.exec ['j'], Effect.sleep 0,
                   Effect.send
                     { start := 0, end_ := 20, dbTime := 10, workCount := 10, errors := 0 },
                   Effect.done] }],
    outputChan := [], wg := 0,
    received := [{ start := 0, end_ := 20, dbTime := 10, workCount := 10, errors := 0 }],
    execLog := [(['a'], false), (['b'], false), (['c'], false), (['d'], false), (['e'], false),
                (['f'], false), (['g'], false), (['h'], false), (['i'], false), (['j'], false)] }

/-- The state reached by `reportRun`: `main` is finished and has received the
records of both workers. -/
def reportFinal : Sys :=
  { workerCount := 2, pause := 0, debugMode := false, stdin := [],
    dphase := DPhase.finished, totalWorkCount := 1,
    dtrace := [DEffect.push ['a'], DEffect.close],
    closed := true,
    workers :=
      [{ phase := WPhase.terminated,
         r := { start := 0, end_ := 8, dbTime := 0, workCount := 0, errors := 0 },
         sig := false,
         trace := [Effect.send { start := 0, end_ := 8, dbTime := 0, workCount := 0, errors := 0 },
                   Effect.done] },
       { phase := WPhase.terminated,
         r := { start := 1, end_ := 7, dbTime := 3, workCount := 1, errors := 0 },
         sig := false,
         trace := [Effect.exec ['a'], Effect.sleep 0,
                   Effect.send { start := 1, end_ := 7, dbTime := 3, workCount := 1, errors := 0 },
                   Effect.done] }],
    outputChan := [], wg := 0,
    received := [{ start := 1, end_ := 7, dbTime := 3, workCount := 1, errors := 0 },
                 { start := 0, end_ := 8, dbTime := 0, workCount := 0, errors := 0 }],
    execLog := [(['a'], false)] }

/-! ## The reader and the dispatcher loop -/

theorem ReadString_delim (d : Char) (seg rest : List Char) (h : d ∉ seg) :
    ReadString d (seg ++ d :: rest) = (seg ++ [d], false, rest) := by
  induction seg with
  | nil => simp [ReadString]
  | cons c cs ih =>
    have hc : c ≠ d := fun e => h (by simp [e])
    have hcs : d ∉ cs := fun e => h (by simp [e])
    simp [ReadString, hc, ih hcs]

theorem ReadString_eof (d : Char) (tail : List Char) (h : d ∉ tail) :
    ReadString d tail = (tail, true, []) := by
  induction tail with
  | nil => simp [ReadString]
  | cons c cs ih =>
    have hc : c ≠ d := fun e => h (by simp [e])
    have hcs : d ∉ cs := fun e => h (by simp [e])
    simp [ReadString, hc, ih hcs]

/-- Every text is a sequence of newline-terminated segments followed by a
tail without newline. -/
theorem segments_exist (d : Char) (input : List Char) :
    ∃ (segs : List (List Char)) (tail : List Char),
      input = (segs.map (fun seg => seg ++ [d])).flatten ++ tail ∧
      (∀ seg ∈ segs, d ∉ seg) ∧ d ∉ tail := by
  induction input with
  | nil => exact ⟨[], [], by simp⟩
  | cons c cs ih =>
    obtain ⟨segs, tail, h1, h2, h3⟩ := ih
    by_cases hc : c = d
    · refine ⟨[] :: segs, tail, ?_, ?_, h3⟩
      · simp [hc, h1]
      · intro seg hseg
        rcases List.mem_cons.1 hseg with h | h
        · simp [h]
        · exact h2 seg h
    · cases segs with
      | nil =>
        refine ⟨[], c :: tail, by simpa using h1, by simp, ?_⟩
        simp only [List.mem_cons, not_or]
        exact ⟨fun e => hc e.symm, h3⟩
      | cons s ss =>
        refine ⟨(c :: s) :: ss, tail, by simp [h1], ?_, h3⟩
        intro seg hseg
        rcases List.mem_cons.1 hseg with h | h
        · subst h
          simp only [List.mem_cons, not_or]
          exact ⟨fun e => hc e.symm, h2 s (by simp)⟩
        · exact h2 seg (by simp [h])

theorem segments_length (d : Char) (segs : List (List Char)) (tail : List Char) :
    segs.length ≤ ((segs.map (fun seg => seg ++ [d])).flatten ++ tail).length := by
  induction segs with
  | nil => simp
  | cons s ss ih => simp at ih ⊢; omega

theorem segments_count (d : Char) (segs : List (List Char)) (tail : List Char)
    (h2 : ∀ seg ∈ segs, d ∉ seg) (h3 : d ∉ tail) :
    ((segs.map (fun seg => seg ++ [d])).flatten ++ tail).count d = segs.length := by
  induction segs with
  | nil => simpa using List.count_eq_zero_of_not_mem h3
  | cons s ss ih =>
    have hs : s.count d = 0 := List.count_eq_zero_of_not_mem (h2 s (by simp))
    have := ih (fun seg hseg => h2 seg (by simp [hseg]))
    simp only [List.map_cons, List.flatten_cons, List.append_assoc, List.count_append,
      List.length_cons] at this ⊢
    simp [hs]
    omega

/-- The read loop over a text given by its segments. -/
theorem readLoop_segments (debugMode : Bool) (segs : List (List Char)) (tail : List Char)
    (h2 : ∀ seg ∈ segs, '\n' ∉ seg) (h3 : '\n' ∉ tail) :
    ∀ (fuel : Nat) (total : Int) (tr : List DEffect), segs.length < fuel →
      readLoop debugMode fuel
          { stdin := (segs.map (fun seg => seg ++ ['\n'])).flatten ++ tail, errEOF := false,
            totalWorkCount := total, trace := tr } =
        some { stdin := [], errEOF := true, totalWorkCount := total + segs.length,
               trace := tr ++ segs.map (fun seg => DEffect.push (TrimRight (seg ++ ['\n']) ['\r', '\n']))
                 ++ (if debugMode then [DEffect.logEOF] else []) } := by
  induction segs with
  | nil =>
    intro fuel total tr hf
    obtain ⟨f, rfl⟩ : ∃ f, fuel = f + 1 := ⟨fuel - 1, by simp at hf; omega⟩
    simp only [List.map_nil, List.flatten_nil, List.nil_append, readLoop,
      ReadString_eof _ tail h3]
    cases f <;> simp [readLoop]
  | cons s ss ih =>
    intro fuel total tr hf
    obtain ⟨f, rfl⟩ : ∃ f, fuel = f + 1 := ⟨fuel - 1, by simp at hf; omega⟩
    have hs : '\n' ∉ s := h2 s (by simp)
    have hss : ∀ seg ∈ ss, '\n' ∉ seg := fun seg hseg => h2 seg (by simp [hseg])
    have hrd := ReadString_delim '\n' s ((ss.map (fun seg => seg ++ ['\n'])).flatten ++ tail) hs
    simp only [List.map_cons, List.flatten_cons, List.append_assoc, List.singleton_append,
      List.cons_append, List.nil_append] at hrd ⊢
    rw [readLoop]
    simp only [hrd, Bool.false_eq_true, if_false, if_true]
    have := ih hss f (total + 1) (tr ++ [DEffect.push (TrimRight (s ++ ['\n']) ['\r', '\n'])])
      (by simp at hf; omega)
    simp only [List.append_assoc] at this
    rw [this]
    simp
    ring

theorem pushed_append (a b : List DEffect) : pushed (a ++ b) = pushed a ++ pushed b := by
  induction a with
  | nil => rfl
  | cons e es ih => cases e <;> simp [pushed, ih]

theorem pushed_map_push (ls : List (List Char)) :
    pushed (ls.map DEffect.push) = ls := by
  induction ls with
  | nil => rfl
  | cons l ls ih => simp [pushed, ih]

/-- The whole of `main` over a text given by its segments. -/
theorem main_segments (debugMode : Bool) (segs : List (List Char)) (tail : List Char)
    (h2 : ∀ seg ∈ segs, '\n' ∉ seg) (h3 : '\n' ∉ tail) :
    main debugMode ((segs.map (fun seg => seg ++ ['\n'])).flatten ++ tail) =
      some { stdin := [], errEOF := true, totalWorkCount := segs.length,
             trace := segs.map (fun seg => DEffect.push (TrimRight (seg ++ ['\n']) ['\r', '\n']))
               ++ (if debugMode then [DEffect.logEOF] else []) ++ [DEffect.close] } := by
  unfold main
  rw [readLoop_segments debugMode segs tail h2 h3 _ 0 []
    (Nat.lt_succ_of_le (segments_length '\n' segs tail))]
  simp


theorem stripTerminators_eq_TrimRight (l : List Char) :
    stripTerminators l = TrimRight l ['\r', '\n'] := by
  unfold stripTerminators TrimRight
  congr 2
  funext c
  simp

theorem dropWhile_terminators (l : List Char) (h : '\n' ∉ l) :
    ∃ k, l = List.replicate k '\r' ++ l.dropWhile (fun c => decide (c ∈ ['\r', '\n'])) ∧
      (l.dropWhile (fun c => decide (c ∈ ['\r', '\n']))).head? ≠ some '\r' := by
  induction l with
  | nil => exact ⟨0, by simp⟩
  | cons c cs ih =>
    have hc : c ≠ '\n' := fun e => h (by simp [e])
    have hcs : '\n' ∉ cs := fun e => h (by simp [e])
    obtain ⟨k, hk1, hk2⟩ := ih hcs
    by_cases hr : c = '\r'
    · refine ⟨k + 1, ?_, ?_⟩
      · subst hr
        simp only [List.replicate_succ, List.cons_append]
        rw [List.dropWhile_cons_of_pos (by simp)]
        exact congrArg _ hk1
      · subst hr
        rw [List.dropWhile_cons_of_pos (by simp)]
        exact hk2
    · refine ⟨0, ?_, ?_⟩
      · rw [List.dropWhile_cons_of_neg (by simp [hr, hc])]
        simp
      · rw [List.dropWhile_cons_of_neg (by simp [hr, hc])]
        simp [hr]

/-- What `TrimRight` leaves of a newline-terminated segment. -/
theorem TrimRight_segment (seg : List Char) (h : '\n' ∉ seg) :
    (∃ k, seg = TrimRight (seg ++ ['\n']) ['\r', '\n'] ++ List.replicate k '\r') ∧
      (TrimRight (seg ++ ['\n']) ['\r', '\n']).getLast? ≠ some '\r' ∧
      '\n' ∉ TrimRight (seg ++ ['\n']) ['\r', '\n'] := by
  have e : TrimRight (seg ++ ['\n']) ['\r', '\n'] =
      (seg.reverse.dropWhile (fun c => decide (c ∈ ['\r', '\n']))).reverse := by
    unfold TrimRight
    rw [List.reverse_append]
    simp only [List.reverse_cons, List.reverse_nil, List.nil_append, List.singleton_append]
    rw [List.dropWhile_cons_of_pos (by simp)]
  obtain ⟨k, hk1, hk2⟩ := dropWhile_terminators seg.reverse (by simpa using h)
  rw [e]
  refine ⟨⟨k, ?_⟩, ?_, ?_⟩
  · have := congrArg List.reverse hk1
    simpa using this
  · simpa using hk2
  · intro hm
    have : '\n' ∈ seg.reverse :=
      (List.dropWhile_sublist _).subset (List.mem_reverse.1 hm)
    exact h (List.mem_reverse.1 this)

theorem rawTerminatedLines_tail (tail cur : List Char) (h : '\n' ∉ tail) :
    rawTerminatedLines tail cur = [] := by
  induction tail generalizing cur with
  | nil => rfl
  | cons c cs ih =>
    have hc : c ≠ '\n' := fun e => h (by simp [e])
    have hcs : '\n' ∉ cs := fun e => h (by simp [e])
    simp [rawTerminatedLines, hc, ih _ hcs]

theorem rawTerminatedLines_segment (seg rest cur : List Char) (h : '\n' ∉ seg) :
    rawTerminatedLines (seg ++ '\n' :: rest) cur =
      (cur ++ seg ++ ['\n']) :: rawTerminatedLines rest [] := by
  induction seg generalizing cur with
  | nil => simp [rawTerminatedLines]
  | cons c cs ih =>
    have hc : c ≠ '\n' := fun e => h (by simp [e])
    have hcs : '\n' ∉ cs := fun e => h (by simp [e])
    simp [rawTerminatedLines, hc, ih _ hcs]

theorem rawTerminatedLines_segments (segs : List (List Char)) (tail : List Char)
    (h2 : ∀ seg ∈ segs, '\n' ∉ seg) (h3 : '\n' ∉ tail) :
    rawTerminatedLines ((segs.map (fun seg => seg ++ ['\n'])).flatten ++ tail) [] =
      segs.map (fun seg => seg ++ ['\n']) := by
  induction segs with
  | nil => simpa using rawTerminatedLines_tail tail [] h3
  | cons s ss ih =>
    have hs : '\n' ∉ s := h2 s (by simp)
    have hss : ∀ seg ∈ ss, '\n' ∉ seg := fun seg hseg => h2 seg (by simp [hseg])
    have := rawTerminatedLines_segment s ((ss.map (fun seg => seg ++ ['\n'])).flatten ++ tail) [] hs
    simp only [List.map_cons, List.flatten_cons, List.append_assoc, List.singleton_append,
      List.cons_append, List.nil_append] at this ⊢
    rw [this, ih hss]

/-! ## The worker as a function of what it receives -/

theorem emitted_append (a b : List Effect) : emitted (a ++ b) = emitted a ++ emitted b := by
  induction a with
  | nil => rfl
  | cons e es ih => cases e <;> simp [emitted, ih]

theorem execs_append (a b : List Effect) : execs (a ++ b) = execs a ++ execs b := by
  induction a with
  | nil => rfl
  | cons e es ih => cases e <;> simp [execs, ih]

theorem sleeps_append (a b : List Effect) : sleeps (a ++ b) = sleeps a ++ sleeps b := by
  induction a with
  | nil => rfl
  | cons e es ih => cases e <;> simp [sleeps, ih]

theorem dones_append (a b : List Effect) : dones (a ++ b) = dones a + dones b := by
  induction a with
  | nil => simp [dones]
  | cons e es ih => cases e <;> simp [dones, ih]; omega

/-- The loop runs the body over the executed statements; it returns through
the signal case exactly when some received statement finds a signal. -/
theorem rangeLoop_eq (workerNum : Nat) (pause : Int) (debugMode : Bool) (clock : Nat → Int)
    (items : List Item) : ∀ st : WState,
    rangeLoop workerNum pause debugMode clock st items =
      (if items.any (fun it => it.sig) then
          emit clock ((executed items).foldl (body workerNum pause debugMode clock) st)
        else (executed items).foldl (body workerNum pause debugMode clock) st,
       items.any (fun it => it.sig)) := by
  induction items with
  | nil => intro st; simp [rangeLoop, executed]
  | cons it rest ih =>
    intro st
    by_cases h : it.sig = true
    · simp [rangeLoop, executed, h]
    · simp [rangeLoop, executed, h, ih]

/-- On both paths `startWorker` is the body folded over the executed
statements, followed by the three final statements. -/
theorem startWorker_eq (workerNum : Nat) (pause : Int) (debugMode : Bool) (clock : Nat → Int)
    (items : List Item) :
    startWorker workerNum pause debugMode clock items =
      emit clock ((executed items).foldl (body workerNum pause debugMode clock)
        (startState clock)) := by
  unfold startWorker
  simp only [rangeLoop_eq]
  by_cases h : items.any (fun it => it.sig) = true <;> simp [h]

theorem executed_of_no_signal (items : List Item) (h : ∀ it ∈ items, it.sig = false) :
    executed items = items := by
  induction items with
  | nil => rfl
  | cons it rest ih =>
    have h1 : it.sig = false := h it (by simp)
    simp [executed, h1, ih (fun x hx => h x (by simp [hx]))]

theorem executed_of_first_signal (pre post : List Item) (it : Item)
    (hpre : ∀ x ∈ pre, x.sig = false) (hit : it.sig = true) :
    executed (pre ++ it :: post) = pre := by
  induction pre with
  | nil => simp [executed, hit]
  | cons x rest ih =>
    have h1 : x.sig = false := hpre x (by simp)
    simp [executed, h1, ih (fun y hy => hpre y (by simp [hy]))]

/-- The trace grows by the body effects of every executed statement. -/
theorem foldl_body_trace (workerNum : Nat) (pause : Int) (debugMode : Bool) (clock : Nat → Int)
    (ex : List Item) : ∀ st : WState,
    (ex.foldl (body workerNum pause debugMode clock) st).trace =
      st.trace ++ (ex.map (fun it =>
        bodyEffects workerNum pause debugMode it.line it.failed)).flatten := by
  induction ex with
  | nil => intro st; simp
  | cons it rest ih =>
    intro st
    simp only [List.foldl_cons, ih, List.map_cons, List.flatten_cons]
    simp only [body, List.append_assoc]

theorem bodyEffects_emitted (workerNum : Nat) (pause : Int) (debugMode : Bool)
    (ex : List Item) :
    emitted ((ex.map (fun it =>
      bodyEffects workerNum pause debugMode it.line it.failed)).flatten) = [] := by
  induction ex with
  | nil => rfl
  | cons it rest ih =>
    simp only [List.map_cons, List.flatten_cons, emitted_append, ih, List.append_nil]
    cases hf : it.failed <;> cases debugMode <;> simp [bodyEffects, emitted]

theorem bodyEffects_dones (workerNum : Nat) (pause : Int) (debugMode : Bool)
    (ex : List Item) :
    dones ((ex.map (fun it =>
      bodyEffects workerNum pause debugMode it.line it.failed)).flatten) = 0 := by
  induction ex with
  | nil => rfl
  | cons it rest ih =>
    simp only [List.map_cons, List.flatten_cons, dones_append, ih, add_zero]
    cases hf : it.failed <;> cases debugMode <;> simp [bodyEffects, dones]

theorem bodyEffects_execs (workerNum : Nat) (pause : Int) (debugMode : Bool)
    (ex : List Item) :
    execs ((ex.map (fun it =>
      bodyEffects workerNum pause debugMode it.line it.failed)).flatten)
      = ex.map (fun it => it.line) := by
  induction ex with
  | nil => rfl
  | cons it rest ih =>
    simp only [List.map_cons, List.flatten_cons, execs_append, ih]
    cases hf : it.failed <;> cases debugMode <;> simp [bodyEffects, execs]

theorem bodyEffects_sleeps (workerNum : Nat) (pause : Int) (debugMode : Bool)
    (ex : List Item) :
    sleeps ((ex.map (fun it =>
      bodyEffects workerNum pause debugMode it.line it.failed)).flatten)
      = List.replicate (ex.length - ex.countP (fun it => it.failed)) pause := by
  induction ex with
  | nil => rfl
  | cons it rest ih =>
    simp only [List.map_cons, List.flatten_cons, sleeps_append, ih]
    have hle : rest.countP (fun it => it.failed) ≤ rest.length := List.countP_le_length _
    cases hf : it.failed
    · have e : (rest.length + 1) - rest.countP (fun it => it.failed)
          = (rest.length - rest.countP (fun it => it.failed)) + 1 := by omega
      simp [bodyEffects, sleeps, List.countP_cons, hf, e, List.replicate_succ]
    · cases debugMode <;> simp [bodyEffects, sleeps, List.countP_cons, hf]

theorem foldl_body_record (workerNum : Nat) (pause : Int) (debugMode : Bool) (clock : Nat → Int)
    (ex : List Item) : ∀ st : WState,
    (ex.foldl (body workerNum pause debugMode clock) st).r.start = st.r.start ∧
    (ex.foldl (body workerNum pause debugMode clock) st).r.end_ = st.r.end_ ∧
    (ex.foldl (body workerNum pause debugMode clock) st).r.workCount
      = st.r.workCount + ex.length ∧
    (ex.foldl (body workerNum pause debugMode clock) st).r.errors
      = st.r.errors + ex.countP (fun it => it.failed) ∧
    (ex.foldl (body workerNum pause debugMode clock) st).r.dbTime
      = st.r.dbTime + ((List.range ex.length).map
          (fun i => clock (st.reads + 2 * i + 1) - clock (st.reads + 2 * i))).sum ∧
    (ex.foldl (body workerNum pause debugMode clock) st).reads = st.reads + 2 * ex.length := by
  induction ex with
  | nil => intro st; simp
  | cons it rest ih =>
    intro st
    obtain ⟨h1, h2, h3, h4, h5, h6⟩ := ih (body workerNum pause debugMode clock st it)
    simp only [List.foldl_cons, h1, h2, h3, h4, h5, h6, List.length_cons]
    have hb : (body workerNum pause debugMode clock st it).reads = st.reads + 2 := rfl
    refine ⟨?_, ?_, ?_, ?_, ?_, ?_⟩
    · cases hf : it.failed <;> simp [body, result.afterExec, hf]
    · cases hf : it.failed <;> simp [body, result.afterExec, hf]
    · cases hf : it.failed <;> simp [body, result.afterExec, hf] <;> ring
    · cases hf : it.failed <;> simp [body, result.afterExec, hf, List.countP_cons]; ring
    · rw [List.range_succ_eq_map, List.map_cons, List.sum_cons, List.map_map, hb]
      have e : (body workerNum pause debugMode clock st it).r.dbTime
          = st.r.dbTime + (clock (st.reads + 1) - clock st.reads) := by
        cases hf : it.failed <;> simp [body, result.afterExec, hf]
      rw [e]
      have e2 : ((fun i => clock (st.reads + 2 * i + 1) - clock (st.reads + 2 * i)) ∘ Nat.succ)
          = (fun i => clock (st.reads + 2 + 2 * i + 1) - clock (st.reads + 2 + 2 * i)) := by
        funext i
        simp only [Function.comp, Nat.succ_eq_add_one]
        have a1 : st.reads + 2 * (i + 1) + 1 = st.reads + 2 + 2 * i + 1 := by ring
        have a2 : st.reads + 2 * (i + 1) = st.reads + 2 + 2 * i := by ring
        rw [a1, a2]
      rw [e2]
      simp
      ring
    · rw [hb]; ring

/-- The record that `startWorker` sends, in terms of the executed statements. -/
theorem startWorker_record (workerNum : Nat) (pause : Int) (debugMode : Bool)
    (clock : Nat → Int) (items : List Item) :
    (startWorker workerNum pause debugMode clock items).r.start = clock 0 ∧
    (startWorker workerNum pause debugMode clock items).r.end_
      = clock (2 * (executed items).length + 1) ∧
    (startWorker workerNum pause debugMode clock items).r.workCount = (executed items).length ∧
    (startWorker workerNum pause debugMode clock items).r.errors
      = (executed items).countP (fun it => it.failed) ∧
    (startWorker workerNum pause debugMode clock items).r.dbTime
      = ((List.range (executed items).length).map (elapsedAt clock)).sum := by
  obtain ⟨h1, h2, h3, h4, h5, h6⟩ :=
    foldl_body_record workerNum pause debugMode clock (executed items) (startState clock)
  rw [startWorker_eq]
  simp only [emit, h1, h3, h4, h5, h6]
  refine ⟨rfl, ?_, ?_, ?_, ?_⟩
  · simp only [startState]; congr 1; ring
  · simp [startState, result.new]
  · simp [startState, result.new]
  · simp only [startState, result.new, zero_add, elapsedAt]
    congr 2
    funext i
    have a1 : 1 + 2 * i + 1 = 2 * i + 2 := by ring
    have a2 : 1 + 2 * i = 2 * i + 1 := by ring
    rw [a1, a2, elapsedAt]

/-- The trace of `startWorker`: the body effects of the executed statements,
then one send of the final record and one `Done`. -/
theorem startWorker_trace (workerNum : Nat) (pause : Int) (debugMode : Bool)
    (clock : Nat → Int) (items : List Item) :
    (startWorker workerNum pause debugMode clock items).trace =
      ((executed items).map (fun it =>
        bodyEffects workerNum pause debugMode it.line it.failed)).flatten
      ++ [Effect.send (startWorker workerNum pause debugMode clock items).r, Effect.done] := by
  rw [startWorker_eq]
  simp only [emit, foldl_body_trace]
  simp [startState]

/-- A worker sends exactly one record: the one it holds when it returns. -/
theorem startWorker_emitted (workerNum : Nat) (pause : Int) (debugMode : Bool)
    (clock : Nat → Int) (items : List Item) :
    emitted (startWorker workerNum pause debugMode clock items).trace
      = [(startWorker workerNum pause debugMode clock items).r] := by
  rw [startWorker_trace, emitted_append, bodyEffects_emitted]
  simp [emitted]

theorem startWorker_execs (workerNum : Nat) (pause : Int) (debugMode : Bool)
    (clock : Nat → Int) (items : List Item) :
    execs (startWorker workerNum pause debugMode clock items).trace
      = (executed items).map (fun it => it.line) := by
  rw [startWorker_trace, execs_append, bodyEffects_execs]
  simp [execs]

theorem startWorker_sleeps (workerNum : Nat) (pause : Int) (debugMode : Bool)
    (clock : Nat → Int) (items : List Item) :
    sleeps (startWorker workerNum pause debugMode clock items).trace
      = List.replicate
          ((executed items).length - (executed items).countP (fun it => it.failed)) pause := by
  rw [startWorker_trace, sleeps_append, bodyEffects_sleeps]
  simp [sleeps]

/-! ## Invariants of the process -/

theorem sum_map_set_add {α M : Type} [AddCommMonoid M] (f : α → M) (a x : α) (d : M)
    (hf : f a = f x + d) :
    ∀ (l : List α) (i : Nat), l[i]? = some x →
      ((l.set i a).map f).sum = (l.map f).sum + d := by
  intro l
  induction l with
  | nil => intro i h; simp at h
  | cons y ys ih =>
    intro i h
    cases i with
    | zero =>
      simp only [List.getElem?_cons_zero, Option.some.injEq] at h
      subst h
      simp only [List.set_cons_zero, List.map_cons, List.sum_cons, hf]
      rw [add_assoc, add_comm d, ← add_assoc]
    | succ j =>
      simp only [List.getElem?_cons_succ] at h
      simp only [List.set_cons_succ, List.map_cons, List.sum_cons, ih j h, add_assoc]

theorem sum_map_set_sub {α M : Type} [AddCommMonoid M] (f : α → M) (a x : α) (d : M)
    (hf : f x = f a + d) :
    ∀ (l : List α) (i : Nat), l[i]? = some x →
      (l.map f).sum = ((l.set i a).map f).sum + d := by
  intro l
  induction l with
  | nil => intro i h; simp at h
  | cons y ys ih =>
    intro i h
    cases i with
    | zero =>
      simp only [List.getElem?_cons_zero, Option.some.injEq] at h
      subst h
      simp only [List.set_cons_zero, List.map_cons, List.sum_cons, hf]
      rw [add_assoc, add_comm d, ← add_assoc]
    | succ j =>
      simp only [List.getElem?_cons_succ] at h
      simp only [List.set_cons_succ, List.map_cons, List.sum_cons, ih j h, add_assoc]

theorem sum_map_set_same {α M : Type} [AddCommMonoid M] (f : α → M) (a x : α)
    (hf : f a = f x) (l : List α) (i : Nat) (h : l[i]? = some x) :
    ((l.set i a).map f).sum = (l.map f).sum := by
  have := sum_map_set_add f a x 0 (by simpa using hf) l i h
  simpa using this

theorem mem_of_getElem? {α : Type} (l : List α) (i : Nat) (x : α) (h : l[i]? = some x) :
    x ∈ l := by
  rw [List.getElem?_eq_some] at h
  obtain ⟨hi, rfl⟩ := h
  exact List.getElem_mem _

theorem forall_mem_set {α : Type} (P : α → Prop) (l : List α) (i : Nat) (a : α)
    (hl : ∀ y ∈ l, P y) (ha : P a) : ∀ y ∈ l.set i a, P y := by
  intro y hy
  rcases List.mem_or_eq_of_mem_set hy with h | h
  · exact hl y h
  · exact h ▸ ha

theorem terminatedCount_le (ws : List Worker) : terminatedCount ws ≤ ws.length := by
  unfold terminatedCount
  induction ws with
  | nil => simp
  | cons w ws ih =>
    simp only [List.map_cons, List.sum_cons, List.length_cons]
    split <;> omega

theorem terminatedCount_eq_length (ws : List Worker)
    (h : terminatedCount ws = ws.length) : ∀ w ∈ ws, w.phase = WPhase.terminated := by
  unfold terminatedCount at h
  induction ws with
  | nil => simp
  | cons w ws ih =>
    have hle := terminatedCount_le ws
    unfold terminatedCount at hle
    simp only [List.map_cons, List.sum_cons, List.length_cons] at h
    intro y hy
    by_cases hw : w.phase = WPhase.terminated
    · simp only [hw, if_true] at h
      rcases List.mem_cons.1 hy with e | e
      · exact e ▸ hw
      · exact ih (by omega) y e
    · simp only [hw, if_false] at h
      omega

theorem length_of_all_terminated (ws : List Worker)
    (h : ∀ w ∈ ws, w.phase = WPhase.terminated) : terminatedCount ws = ws.length := by
  unfold terminatedCount
  induction ws with
  | nil => simp
  | cons w ws ih =>
    have hw : w.phase = WPhase.terminated := h w (by simp)
    simp only [List.map_cons, List.sum_cons, List.length_cons, hw, if_true]
    rw [ih (fun y hy => h y (by simp [hy]))]
    omega

theorem Inv_init (n : Nat) (pause : Int) (debugMode : Bool) (input : List Char) :
    Inv (init n pause debugMode input) := by
  have hz : terminatedCount (List.replicate n
      ({ phase := WPhase.born, r := result.new 0, sig := false, trace := [] } : Worker)) = 0 := by
    unfold terminatedCount
    induction n with
    | zero => simp
    | succ k ih => simp [List.replicate_succ, ih]
  refine
    { len := by simp [init]
      traces := ?_
      born := ?_
      wg := by simp [init, hz]
      count := by simp [init, hz]
      sums := ?_
      pre := by intro _ _; rfl
      rep := by intro i h; simp [init] at h
      fin := by intro h; simp [init] at h
      work := ?_
      errs := ?_
      total := by simp [init, pushed]
      records := ?_ }
  · intro w hw
    simp only [init, List.mem_replicate] at hw
    obtain ⟨-, rfl⟩ := hw
    simp [emitted, dones]
  · intro w hw _
    simp only [init, List.mem_replicate] at hw
    obtain ⟨-, rfl⟩ := hw
    rfl
  · intro f
    simp only [init, List.append_nil, List.map_nil, List.sum_nil]
    induction n with
    | zero => simp
    | succ k ih => simp [List.replicate_succ]
  · simp only [init]
    induction n with
    | zero => simp
    | succ k ih => simp [List.replicate_succ, result.new]
  · simp only [init]
    induction n with
    | zero => simp
    | succ k ih => simp [List.replicate_succ, result.new]
  · simp only [init, List.append_nil]
    induction n with
    | zero => simp
    | succ k ih => simp [List.replicate_succ]

theorem Clean_init (n : Nat) (pause : Int) (debugMode : Bool) (input : List Char) :
    Clean (init n pause debugMode input) := by
  refine { nosig := ?_, closedEq := rfl, opened := ?_, held := ?_ }
  · intro w hw
    simp only [init, List.mem_replicate] at hw
    obtain ⟨-, rfl⟩ := hw
    rfl
  · intro _ w hw
    simp only [init, List.mem_replicate] at hw
    obtain ⟨-, rfl⟩ := hw
    simp
  · simp only [init, pushed, List.map_nil]
    induction n with
    | zero => simp
    | succ k ih => simp [List.replicate_succ, Worker.held]


theorem terminatedCount_set_of_running (ws : List Worker) (i : Nat) (w0 a : Worker)
    (hget : ws[i]? = some w0) (hw0 : w0.phase ≠ WPhase.terminated)
    (ha : a.phase ≠ WPhase.terminated) :
    terminatedCount (ws.set i a) = terminatedCount ws := by
  unfold terminatedCount
  exact sum_map_set_same _ a w0 (by simp [hw0, ha]) ws i hget

theorem terminatedCount_set_of_terminated (ws : List Worker) (i : Nat) (w0 a : Worker)
    (hget : ws[i]? = some w0) (hw0 : w0.phase ≠ WPhase.terminated)
    (ha : a.phase = WPhase.terminated) :
    terminatedCount (ws.set i a) = terminatedCount ws + 1 := by
  unfold terminatedCount
  exact sum_map_set_add _ a w0 1 (by simp [hw0, ha]) ws i hget

/-- A running worker contradicts a dispatcher that is past `wg.Wait()`. -/
theorem Inv_running_not_reported {s : Sys} (hinv : Inv s) (i : Nat) (w0 : Worker)
    (hget : s.workers[i]? = some w0) (hw0 : w0.phase ≠ WPhase.terminated) :
    (∀ j, s.dphase ≠ DPhase.reporting j) ∧ s.dphase ≠ DPhase.finished := by
  have hall : terminatedCount s.workers = s.workerCount → False := by
    intro h
    exact hw0 (terminatedCount_eq_length s.workers (by rw [h, hinv.len]) w0
      (mem_of_getElem? _ _ _ hget))
  exact ⟨fun j hj => hall (hinv.rep j hj).2, fun hf => hall (hinv.fin hf).2⟩

/-- The invariant when a running worker is replaced by a running worker with
the same trace of sends and the same counters up to the executions logged. -/
theorem Inv_set_running {s : Sys} (hinv : Inv s) (i : Nat) (w0 a : Worker)
    (hget : s.workers[i]? = some w0) (hw0 : w0.phase ≠ WPhase.terminated)
    (ha : a.phase ≠ WPhase.terminated) (hb : a.phase ≠ WPhase.born)
    (hem : emitted a.trace = emitted w0.trace) (hdn : dones a.trace = dones w0.trace)
    (dphase : DPhase) (hd : dphase = s.dphase ∨
      ((∀ j, dphase ≠ DPhase.reporting j) ∧ dphase ≠ DPhase.finished))
    (stdin : List Char) (total : Int) (dtrace : List DEffect) (closed : Bool)
    (execLog : List (List Char × Bool))
    (hwork : a.r.workCount + s.execLog.length = w0.r.workCount + execLog.length)
    (herrs : a.r.errors + s.execLog.countP (fun x => x.2)
      = w0.r.errors + execLog.countP (fun x => x.2))
    (htotal : total = (pushed dtrace).length) :
    Inv { s with workers := s.workers.set i a, dphase := dphase, stdin := stdin,
                 totalWorkCount := total, dtrace := dtrace, closed := closed,
                 execLog := execLog } := by
  have hrun := Inv_running_not_reported hinv i w0 hget hw0
  have hmem := mem_of_getElem? _ _ _ hget
  have htc := terminatedCount_set_of_running s.workers i w0 a hget hw0 ha
  refine
    { len := by simpa using hinv.len
      traces := ?_
      born := forall_mem_set _ _ _ _ hinv.born (fun h => absurd h hb)
      wg := by simpa [htc] using hinv.wg
      count := by simpa [htc] using hinv.count
      sums := ?_
      pre := by intro _ _; exact hinv.pre hrun.1 hrun.2
      rep := ?_
      fin := ?_
      work := ?_
      errs := ?_
      total := htotal
      records := ?_ }
  · apply forall_mem_set _ _ _ _ hinv.traces
    have := hinv.traces w0 hmem
    exact ⟨fun h => absurd h ha, fun _ => by rw [hem, hdn]; exact this.2 hw0⟩
  · intro f
    have := hinv.sums f
    simp only at this ⊢
    rw [this]
    exact (sum_map_set_same _ a w0 (by simp [hw0, ha]) s.workers i hget).symm
  · intro j hj
    simp only at hj
    rcases hd with h | h
    · exact absurd (h ▸ hj) (hrun.1 j)
    · exact absurd hj (h.1 j)
  · intro hj
    simp only at hj
    rcases hd with h | h
    · exact absurd (h ▸ hj) hrun.2
    · exact absurd hj h.2
  · have h1 := sum_map_set_sub (fun w : Worker => w.r.workCount) a w0
      (w0.r.workCount - a.r.workCount) (by ring) s.workers i hget
    have h2 := hinv.work
    simp only at h1 h2 ⊢
    omega
  · have h1 := sum_map_set_sub (fun w : Worker => w.r.errors) a w0
      (w0.r.errors - a.r.errors) (by ring) s.workers i hget
    have h2 := hinv.errs
    simp only at h1 h2 ⊢
    omega
  · have := hinv.records
    simp only at this ⊢
    rw [this]
    exact (sum_map_set_same _ a w0 (by simp [hw0, ha]) s.workers i hget).symm

/-- The invariant when only variables of `main` before the report change. -/
theorem Inv_set_main {s : Sys} (hinv : Inv s)
    (dphase : DPhase) (hd : (∀ j, dphase ≠ DPhase.reporting j) ∧ dphase ≠ DPhase.finished)
    (hs : (∀ j, s.dphase ≠ DPhase.reporting j) ∧ s.dphase ≠ DPhase.finished)
    (stdin : List Char) (dtrace : List DEffect) (closed : Bool)
    (htotal : s.totalWorkCount = (pushed dtrace).length) :
    Inv { s with dphase := dphase, stdin := stdin, dtrace := dtrace, closed := closed } :=
  { len := hinv.len
    traces := hinv.traces
    born := hinv.born
    wg := hinv.wg
    count := hinv.count
    sums := hinv.sums
    pre := fun _ _ => hinv.pre hs.1 hs.2
    rep := fun j hj => absurd hj (hd.1 j)
    fin := fun hj => absurd hj hd.2
    work := hinv.work
    errs := hinv.errs
    total := htotal
    records := hinv.records }

theorem Inv_terminate {s s1 : Sys} (hinv : Inv s) (i : Nat) (w0 w : Worker) (t : Int)
    (hget : s.workers[i]? = some w0) (hw0 : w0.phase ≠ WPhase.terminated)
    (hr : w.r = w0.r) (htr : w.trace = w0.trace)
    (h : terminate s i w t = some s1) : Inv s1 := by
  unfold terminate at h
  split at h
  · simp only [Option.some.injEq] at h
    subst h
    have hrun := Inv_running_not_reported hinv i w0 hget hw0
    have hmem := mem_of_getElem? _ _ _ hget
    have htc := terminatedCount_set_of_terminated s.workers i w0
      { phase := WPhase.terminated, r := { w.r with end_ := t }, sig := w.sig,
        trace := w.trace ++ [Effect.send { w.r with end_ := t }, Effect.done] } hget hw0 rfl
    refine
      { len := by simpa using hinv.len
        traces := ?_
        born := forall_mem_set _ _ _ _ hinv.born (fun h => by simp at h)
        wg := ?_
        count := ?_
        sums := ?_
        pre := by intro _ _; exact hinv.pre hrun.1 hrun.2
        rep := fun j hj => absurd hj (hrun.1 j)
        fin := fun hj => absurd hj hrun.2
        work := ?_
        errs := ?_
        total := hinv.total
        records := ?_ }
    · apply forall_mem_set _ _ _ _ hinv.traces
      have := (hinv.traces w0 hmem).2 hw0
      refine ⟨fun _ => ?_, fun h => absurd rfl h⟩
      simp only [emitted_append, dones_append, htr, this.1, this.2]
      simp [emitted, dones]
    · have := hinv.wg
      simp only [htc] at this ⊢
      rw [this]
      push_cast
      ring
    · have := hinv.count
      simp only [htc, List.length_append, List.length_singleton] at this ⊢
      omega
    · intro f
      have h1 := hinv.sums f
      have h2 := sum_map_set_add
        (fun w : Worker => if w.phase = WPhase.terminated then f w.r else 0)
        { phase := WPhase.terminated, r := { w.r with end_ := t }, sig := w.sig,
          trace := w.trace ++ [Effect.send { w.r with end_ := t }, Effect.done] } w0
        (f { w.r with end_ := t }) (by simp [hw0]) s.workers i hget
      simp only [List.map_append, List.sum_append, List.map_cons, List.map_nil, List.sum_cons,
        List.sum_nil, add_zero] at h1 h2 ⊢
      rw [h2, ← h1]
      ring
    · have h1 := sum_map_set_same (fun w : Worker => w.r.workCount)
        { phase := WPhase.terminated, r := { w.r with end_ := t }, sig := w.sig,
          trace := w.trace ++ [Effect.send { w.r with end_ := t }, Effect.done] } w0
        (by simp [hr]) s.workers i hget
      have h2 := hinv.work
      simp only at h1 h2 ⊢
      rw [h1, h2]
    · have h1 := sum_map_set_same (fun w : Worker => w.r.errors)
        { phase := WPhase.terminated, r := { w.r with end_ := t }, sig := w.sig,
          trace := w.trace ++ [Effect.send { w.r with end_ := t }, Effect.done] } w0
        (by simp [hr]) s.workers i hget
      have h2 := hinv.errs
      simp only at h1 h2 ⊢
      rw [h1, h2]
    · have h1 := hinv.records
      have h2 := sum_map_set_add
        (fun w : Worker =>
          if w.phase = WPhase.terminated then ({w.r} : Multiset result) else 0)
        { phase := WPhase.terminated, r := { w.r with end_ := t }, sig := w.sig,
          trace := w.trace ++ [Effect.send { w.r with end_ := t }, Effect.done] } w0
        ({({ w.r with end_ := t } : result)} : Multiset result) (by simp [hw0]) s.workers i hget
      simp only at h1 h2 ⊢
      rw [h2, ← h1, ← List.append_assoc, ← Multiset.coe_add]
      rfl
  · simp at h


theorem emitted_bodyEffects (i : Nat) (pause : Int) (debugMode : Bool) (line : List Char)
    (failed : Bool) : emitted (bodyEffects i pause debugMode line failed) = [] := by
  cases failed <;> cases debugMode <;> simp [bodyEffects, emitted]

theorem dones_bodyEffects (i : Nat) (pause : Int) (debugMode : Bool) (line : List Char)
    (failed : Bool) : dones (bodyEffects i pause debugMode line failed) = 0 := by
  cases failed <;> cases debugMode <;> simp [bodyEffects, dones]

/-- Every step keeps the invariant. -/
theorem Inv_step {s s1 : Sys} (hinv : Inv s) (e : Event) (h : step s e = some s1) : Inv s1 := by
  cases e with
  | interrupt =>
    simp only [step, Option.some.injEq] at h
    exact h ▸ hinv
  | dRead =>
    simp only [step] at h
    split at h
    · rename_i hd
      have hs : (∀ j, s.dphase ≠ DPhase.reporting j) ∧ s.dphase ≠ DPhase.finished := by
        rw [hd]; simp
      split at h
      · simp only [Option.some.injEq] at h
        subst h
        exact Inv_set_main hinv _ (by simp) hs _ s.dtrace s.closed hinv.total
      · simp only [Option.some.injEq] at h
        subst h
        refine Inv_set_main hinv _ (by simp) hs _ _ s.closed ?_
        rw [pushed_append, hinv.total]
        cases s.debugMode <;> simp [pushed]
    · simp at h
  | dPush i =>
    simp only [step] at h
    split at h
    · rename_i line w hd hget
      split at h
      · rename_i hph
        simp only [Option.some.injEq] at h
        subst h
        exact Inv_set_running hinv i w { w with phase := WPhase.selecting line } hget
          (by simp [hph]) (by simp) (by simp) rfl rfl
          DPhase.reading (Or.inr (by simp)) s.stdin (s.totalWorkCount + 1)
          (s.dtrace ++ [DEffect.push line]) s.closed s.execLog rfl rfl
          (by rw [pushed_append, hinv.total]; simp [pushed])
      · simp at h
    · simp at h
  | dClose =>
    simp only [step] at h
    split at h
    · rename_i hd
      have hs : (∀ j, s.dphase ≠ DPhase.reporting j) ∧ s.dphase ≠ DPhase.finished := by
        rw [hd]; simp
      simp only [Option.some.injEq] at h
      subst h
      refine Inv_set_main hinv _ (by simp) hs s.stdin _ true ?_
      rw [pushed_append, hinv.total]
      simp [pushed]
    · simp at h
  | dWait =>
    simp only [step] at h
    split at h
    · rename_i hd
      split at h
      · rename_i hwg
        simp only [Option.some.injEq] at h
        subst h
        have hrec : s.received = [] := hinv.pre (by rw [hd]; simp) (by rw [hd]; simp)
        have htc : terminatedCount s.workers = s.workerCount := by
          have := hinv.wg
          have hle := terminatedCount_le s.workers
          rw [hinv.len] at hle
          omega
        exact
          { len := hinv.len
            traces := hinv.traces
            born := hinv.born
            wg := hinv.wg
            count := hinv.count
            sums := hinv.sums
            pre := fun hj _ => absurd rfl (hj 0)
            rep := fun j hj => by
              simp only [DPhase.reporting.injEq] at hj
              subst hj
              exact ⟨by simp [hrec], htc⟩
            fin := fun hj => by simp at hj
            work := hinv.work
            errs := hinv.errs
            total := hinv.total
            records := hinv.records }
      · simp at h
    · simp at h
  | dRecv =>
    simp only [step] at h
    split at h
    · rename_i j r rest hd hout
      split at h
      · simp only [Option.some.injEq] at h
        subst h
        have hrep := hinv.rep j hd
        exact
          { len := hinv.len
            traces := hinv.traces
            born := hinv.born
            wg := hinv.wg
            count := by
              have := hinv.count
              simp only [hout, List.length_cons] at this
              simp only [List.length_append, List.length_cons, List.length_nil]
              omega
            sums := fun f => by
              have := hinv.sums f
              simp only [hout] at this
              simpa using this
            pre := fun hj _ => absurd rfl (hj (j + 1))
            rep := fun k hk => by
              simp only [DPhase.reporting.injEq] at hk
              subst hk
              exact ⟨by simp [hrep.1], hrep.2⟩
            fin := fun hj => by simp at hj
            work := hinv.work
            errs := hinv.errs
            total := hinv.total
            records := by
              have := hinv.records
              simp only [hout] at this
              simpa using this }
      · simp at h
    · simp at h
  | dFinish =>
    simp only [step] at h
    split at h
    · rename_i j hd
      split at h
      · simp at h
      · rename_i hj
        simp only [Option.some.injEq] at h
        subst h
        have hrep := hinv.rep j hd
        have hcount := hinv.count
        have hle := terminatedCount_le s.workers
        rw [hinv.len] at hle
        exact
          { len := hinv.len
            traces := hinv.traces
            born := hinv.born
            wg := hinv.wg
            count := hinv.count
            sums := hinv.sums
            pre := fun _ hf => absurd rfl hf
            rep := fun k hk => by simp at hk
            fin := fun _ => ⟨by simp only; omega, hrep.2⟩
            work := hinv.work
            errs := hinv.errs
            total := hinv.total
            records := hinv.records }
    · simp at h
  | wBorn i t =>
    simp only [step] at h
    split at h
    · rename_i w hget
      split at h
      · rename_i hph
        simp only [Option.some.injEq] at h
        subst h
        have hr := hinv.born w (mem_of_getElem? _ _ _ hget) hph
        exact Inv_set_running hinv i w { w with phase := WPhase.ranging, r := result.new t } hget
          (by simp [hph]) (by simp) (by simp) rfl rfl
          s.dphase (Or.inl rfl) s.stdin s.totalWorkCount s.dtrace s.closed s.execLog
          (by simp [hr, result.new]) (by simp [hr, result.new]) hinv.total
      · simp at h
    · simp at h
  | wSelect i t =>
    simp only [step] at h
    split at h
    · rename_i w hget
      split at h
      · rename_i line hph
        split at h
        · exact Inv_terminate hinv i w { w with sig := false } t hget (by simp [hph]) rfl rfl h
        · simp only [Option.some.injEq] at h
          subst h
          exact Inv_set_running hinv i w { w with phase := WPhase.executing line } hget
            (by simp [hph]) (by simp) (by simp) rfl rfl
            s.dphase (Or.inl rfl) s.stdin s.totalWorkCount s.dtrace s.closed s.execLog
            rfl rfl hinv.total
      · simp at h
    · simp at h
  | wExec i elapsed failed =>
    simp only [step] at h
    split at h
    · rename_i w hget
      split at h
      · rename_i line hph
        simp only [Option.some.injEq] at h
        subst h
        refine Inv_set_running hinv i w
          { w with phase := WPhase.ranging, r := w.r.afterExec elapsed failed,
                   trace := w.trace ++ bodyEffects i s.pause s.debugMode line failed } hget
          (by simp [hph]) (by simp) (by simp) ?_ ?_
          s.dphase (Or.inl rfl) s.stdin s.totalWorkCount s.dtrace s.closed
          (s.execLog ++ [(line, failed)]) ?_ ?_ hinv.total
        · simp [emitted_append, emitted_bodyEffects]
        · simp [dones_append, dones_bodyEffects]
        · cases failed <;> simp [result.afterExec] <;> ring
        · cases failed <;> simp [result.afterExec, List.countP_append, List.countP_cons]; ring
      · simp at h
    · simp at h
  | wExit i t =>
    simp only [step] at h
    split at h
    · rename_i w hget
      split at h
      · rename_i hph
        exact Inv_terminate hinv i w w t hget (by simp [hph.1]) rfl rfl h
      · simp at h
    · simp at h

theorem held_sum_set_same (ws : List Worker) (i : Nat) (w0 a : Worker)
    (hget : ws[i]? = some w0) (hh : a.held = w0.held) :
    ((ws.set i a).map (fun w => Multiset.ofList w.held)).sum
      = (ws.map (fun w => Multiset.ofList w.held)).sum :=
  sum_map_set_same (fun w : Worker => Multiset.ofList w.held) a w0 (by simp [hh]) ws i hget

/-- Every step keeps the second invariant. -/
theorem Clean_step {s s1 : Sys} (hc : Clean s) (e : Event)
    (h : step s e = some s1) : Clean s1 := by
  cases e with
  | interrupt =>
    simp only [step, Option.some.injEq] at h
    exact h ▸ hc
  | dRead =>
    simp only [step] at h
    split at h
    · rename_i hd
      have hcl : s.closed = false := by rw [hc.closedEq, hd]; rfl
      split at h
      · simp only [Option.some.injEq] at h
        subst h
        exact { nosig := hc.nosig, closedEq := hcl, opened := hc.opened, held := hc.held }
      · simp only [Option.some.injEq] at h
        subst h
        refine { nosig := hc.nosig, closedEq := hcl, opened := hc.opened, held := ?_ }
        have := hc.held
        simp only [pushed_append] at this ⊢
        cases s.debugMode <;> simpa [pushed] using this
    · simp at h
  | dPush i =>
    simp only [step] at h
    split at h
    · rename_i line w hd hget
      have hcl : s.closed = false := by rw [hc.closedEq, hd]; rfl
      split at h
      · rename_i hph
        simp only [Option.some.injEq] at h
        subst h
        refine { nosig := ?_, closedEq := hcl, opened := ?_, held := ?_ }
        · exact forall_mem_set _ _ _ _ hc.nosig (hc.nosig w (mem_of_getElem? _ _ _ hget))
        · intro _
          exact forall_mem_set _ _ _ _ (hc.opened hcl) (by simp)
        · have h1 := sum_map_set_add (fun w : Worker => Multiset.ofList w.held)
            { w with phase := WPhase.selecting line } w (Multiset.ofList [line])
            (by simp [Worker.held, hph]) s.workers i hget
          have h2 := hc.held
          simp only [pushed_append, pushed] at h1 h2 ⊢
          rw [h1, ← add_assoc, h2]
          exact Multiset.coe_add _ _
      · simp at h
    · simp at h
  | dClose =>
    simp only [step] at h
    split at h
    · simp only [Option.some.injEq] at h
      subst h
      refine { nosig := hc.nosig, closedEq := rfl, opened := ?_, held := ?_ }
      · intro hf
        simp at hf
      · have := hc.held
        simp only [pushed_append] at this ⊢
        simpa [pushed] using this
    · simp at h
  | dWait =>
    simp only [step] at h
    split at h
    · rename_i hd
      have hcl : s.closed = true := by rw [hc.closedEq, hd]; rfl
      split at h
      · simp only [Option.some.injEq] at h
        subst h
        exact { nosig := hc.nosig, closedEq := hcl, opened := hc.opened, held := hc.held }
      · simp at h
    · simp at h
  | dRecv =>
    simp only [step] at h
    split at h
    · rename_i j r rest hd hout
      have hcl : s.closed = true := by rw [hc.closedEq, hd]; rfl
      split at h
      · simp only [Option.some.injEq] at h
        subst h
        exact { nosig := hc.nosig, closedEq := hcl, opened := hc.opened, held := hc.held }
      · simp at h
    · simp at h
  | dFinish =>
    simp only [step] at h
    split at h
    · rename_i j hd
      have hcl : s.closed = true := by rw [hc.closedEq, hd]; rfl
      split at h
      · simp at h
      · simp only [Option.some.injEq] at h
        subst h
        exact { nosig := hc.nosig, closedEq := hcl, opened := hc.opened, held := hc.held }
    · simp at h
  | wBorn i t =>
    simp only [step] at h
    split at h
    · rename_i w hget
      split at h
      · rename_i hph
        simp only [Option.some.injEq] at h
        subst h
        refine { nosig := ?_, closedEq := hc.closedEq, opened := ?_, held := ?_ }
        · exact forall_mem_set _ _ _ _ hc.nosig (hc.nosig w (mem_of_getElem? _ _ _ hget))
        · intro hcl
          exact forall_mem_set _ _ _ _ (hc.opened hcl) (by simp)
        · have h1 := held_sum_set_same s.workers i w
            { w with phase := WPhase.ranging, r := result.new t } hget
            (by simp [Worker.held, hph])
          have h2 := hc.held
          simp only at h1 h2 ⊢
          rw [h1, h2]
      · simp at h
    · simp at h
  | wSelect i t =>
    simp only [step] at h
    split at h
    · rename_i w hget
      have hsig := hc.nosig w (mem_of_getElem? _ _ _ hget)
      split at h
      · rename_i line hph
        split at h
        · rename_i hs
          rw [hsig] at hs
          exact absurd hs (by simp)
        · simp only [Option.some.injEq] at h
          subst h
          refine { nosig := ?_, closedEq := hc.closedEq, opened := ?_, held := ?_ }
          · exact forall_mem_set _ _ _ _ hc.nosig hsig
          · intro hcl
            exact forall_mem_set _ _ _ _ (hc.opened hcl) (by simp)
          · have h1 := held_sum_set_same s.workers i w
              { w with phase := WPhase.executing line } hget (by simp [Worker.held, hph])
            have h2 := hc.held
            simp only at h1 h2 ⊢
            rw [h1, h2]
      · simp at h
    · simp at h
  | wExec i elapsed failed =>
    simp only [step] at h
    split at h
    · rename_i w hget
      split at h
      · rename_i line hph
        simp only [Option.some.injEq] at h
        subst h
        refine { nosig := ?_, closedEq := hc.closedEq, opened := ?_, held := ?_ }
        · exact forall_mem_set _ _ _ _ hc.nosig (hc.nosig w (mem_of_getElem? _ _ _ hget))
        · intro hcl
          exact forall_mem_set _ _ _ _ (hc.opened hcl) (by simp)
        · have h1 := sum_map_set_sub (fun w : Worker => Multiset.ofList w.held)
            { w with phase := WPhase.ranging, r := w.r.afterExec elapsed failed,
                     trace := w.trace ++ bodyEffects i s.pause s.debugMode line failed }
            w (Multiset.ofList [line]) (by simp [Worker.held, hph]) s.workers i hget
          have h2 := hc.held
          simp only [List.map_append, List.map_cons, List.map_nil] at h1 h2 ⊢
          rw [← h2, h1]
          simp only [← Multiset.coe_add]
          rw [add_assoc]
          congr 1
          rw [add_comm]
      · simp at h
    · simp at h
  | wExit i t =>
    simp only [step] at h
    split at h
    · rename_i w hget
      split at h
      · rename_i hph
        unfold terminate at h
        split at h
        · simp only [Option.some.injEq] at h
          subst h
          refine { nosig := ?_, closedEq := hc.closedEq, opened := ?_, held := ?_ }
          · exact forall_mem_set _ _ _ _ hc.nosig (hc.nosig w (mem_of_getElem? _ _ _ hget))
          · intro hcl
            simp only at hcl
            rw [hph.2] at hcl
            exact absurd hcl (by simp)
          · have h1 := held_sum_set_same s.workers i w
              { phase := WPhase.terminated, r := { w.r with end_ := t }, sig := w.sig,
                trace := w.trace ++ [Effect.send { w.r with end_ := t }, Effect.done] } hget
              (by simp [Worker.held, hph.1])
            have h2 := hc.held
            simp only at h1 h2 ⊢
            rw [h1, h2]
        · simp at h
      · simp at h
    · simp at h

theorem run_cons (s s2 : Sys) (e : Event) (es : List Event)
    (h : run s (e :: es) = some s2) : ∃ s1, step s e = some s1 ∧ run s1 es = some s2 := by
  simp only [run] at h
  cases hs : step s e with
  | none => simp [hs] at h
  | some s1 => exact ⟨s1, rfl, by simpa [hs] using h⟩

/-- The invariant holds along every run. -/
theorem Inv_run {s : Sys} (hinv : Inv s) (evs : List Event) :
    ∀ s2, run s evs = some s2 → Inv s2 := by
  induction evs generalizing s with
  | nil => intro s2 h; simp only [run, Option.some.injEq] at h; exact h ▸ hinv
  | cons e es ih =>
    intro s2 h
    obtain ⟨s1, h1, h2⟩ := run_cons s s2 e es h
    exact ih (Inv_step hinv e h1) s2 h2

/-- The second invariant holds along every run. -/
theorem Clean_run {s : Sys} (hc : Clean s) (evs : List Event) :
    ∀ s2, run s evs = some s2 → Clean s2 := by
  induction evs generalizing s with
  | nil => intro s2 h; simp only [run, Option.some.injEq] at h; exact h ▸ hc
  | cons e es ih =>
    intro s2 h
    obtain ⟨s1, h1, h2⟩ := run_cons s s2 e es h
    exact ih (Clean_step hc e h1) s2 h2

theorem held_sum_of_terminated (ws : List Worker)
    (h : ∀ w ∈ ws, w.phase = WPhase.terminated) :
    (ws.map (fun w => Multiset.ofList w.held)).sum = 0 := by
  induction ws with
  | nil => rfl
  | cons w ws ih =>
    have hw : w.phase = WPhase.terminated := h w (by simp)
    simp only [List.map_cons, List.sum_cons, ih (fun y hy => h y (by simp [hy]))]
    simp [Worker.held, hw]

theorem sum_of_terminated (f : result → Int) (ws : List Worker)
    (h : ∀ w ∈ ws, w.phase = WPhase.terminated) :
    (ws.map (fun w => if w.phase = WPhase.terminated then f w.r else 0)).sum
      = (ws.map (fun w => f w.r)).sum := by
  induction ws with
  | nil => rfl
  | cons w ws ih =>
    have hw : w.phase = WPhase.terminated := h w (by simp)
    simp only [List.map_cons, List.sum_cons, ih (fun y hy => h y (by simp [hy])), hw, if_true]


/-- No step changes the configured number of workers. -/
theorem step_workerCount (s s1 : Sys) (e : Event) (h : step s e = some s1) :
    s1.workerCount = s.workerCount := by
  cases e <;> simp only [step, terminate] at h <;>
    (repeat' split at h) <;>
    first
      | (simp only [Option.some.injEq] at h; subst h; rfl)
      | simp at h

theorem run_workerCount (evs : List Event) :
    ∀ s s2 : Sys, run s evs = some s2 → s2.workerCount = s.workerCount := by
  induction evs with
  | nil =>
    intro s s2 h
    simp only [run, Option.some.injEq] at h
    exact h ▸ rfl
  | cons e es ih =>
    intro s s2 h
    obtain ⟨s1, h1, h2⟩ := run_cons s s2 e es h
    rw [ih s1 s2 h2, step_workerCount s s1 e h1]

/-- While a worker runs there is room in the result channel. -/
theorem Inv_room {s : Sys} (hinv : Inv s) (i : Nat) (w : Worker)
    (hget : s.workers[i]? = some w) (hw : w.phase ≠ WPhase.terminated) :
    s.outputChan.length < s.workerCount := by
  have hle := terminatedCount_le s.workers
  have hne : terminatedCount s.workers ≠ s.workers.length := fun h =>
    hw (terminatedCount_eq_length s.workers h w (mem_of_getElem? _ _ _ hget))
  have := hinv.count
  have := hinv.len
  omega

/-! ## Receives, progress and termination of the process -/

/-- Only the receive of `main` adds to the received records, and it adds one. -/
theorem step_received (s s1 : Sys) (e : Event) (h : step s e = some s1) :
    s1.received.length = s.received.length + (if e = Event.dRecv then 1 else 0) := by
  cases e <;> simp only [step, terminate] at h <;>
    (repeat' split at h) <;>
    first
      | (simp only [Option.some.injEq] at h; subst h; simp)
      | simp at h

/-- Along a run `main` holds one more record for every receive step. -/
theorem run_received (evs : List Event) :
    ∀ s s2 : Sys, run s evs = some s2 →
      s2.received.length = s.received.length + evs.count Event.dRecv := by
  induction evs with
  | nil =>
    intro s s2 h
    simp only [run, Option.some.injEq] at h
    subst h
    simp
  | cons e es ih =>
    intro s s2 h
    obtain ⟨s1, h1, h2⟩ := run_cons s s2 e es h
    rw [ih s1 s2 h2, step_received s s1 e h1, List.count_cons]
    by_cases he : e = Event.dRecv
    · simp [he]; omega
    · have he2 : ¬ (e == Event.dRecv) = true := by simpa using he
      simp [he, he2]

theorem ReadString_length (d : Char) (l : List Char) :
    (ReadString d l).2.2.length ≤ l.length ∧
      ((ReadString d l).2.1 = false → (ReadString d l).2.2.length < l.length) := by
  induction l with
  | nil => simp [ReadString]
  | cons c cs ih =>
    by_cases hc : c = d
    · simp [ReadString, hc]
    · simp only [ReadString, hc, if_false, List.length_cons]
      exact ⟨by omega, fun h => by have := ih.2 h; omega⟩

/-- Every step of `main` or of a worker lowers `stepsLeft`. -/
theorem step_stepsLeft (s s1 : Sys) (e : Event) (he : e.isProcess = true)
    (h : step s e = some s1) : stepsLeft s1 < stepsLeft s := by
  cases e with
  | interrupt => simp [Event.isProcess] at he
  | dRead =>
    simp only [step] at h
    split at h
    · rename_i hd
      have hlen := ReadString_length '\n' s.stdin
      split at h
      · rename_i hf
        simp only [Option.some.injEq] at h
        subst h
        have := hlen.2 hf
        simp only [stepsLeft, hd, DPhase.weight]
        omega
      · simp only [Option.some.injEq] at h
        subst h
        have := hlen.1
        simp only [stepsLeft, hd, DPhase.weight]
        omega
    · simp at h
  | dPush i =>
    simp only [step] at h
    split at h
    · rename_i line w hd hget
      split at h
      · rename_i hph
        simp only [Option.some.injEq] at h
        subst h
        have h1 := sum_map_set_add (fun w : Worker => w.phase.weight)
          { w with phase := WPhase.selecting line } w 2
          (by simp [WPhase.weight, hph]) s.workers i hget
        simp only [stepsLeft, hd, DPhase.weight] at h1 ⊢
        omega
      · simp at h
    · simp at h
  | dClose =>
    simp only [step] at h
    split at h
    · rename_i hd
      simp only [Option.some.injEq] at h
      subst h
      simp only [stepsLeft, hd, DPhase.weight]
      omega
    · simp at h
  | dWait =>
    simp only [step] at h
    split at h
    · rename_i hd
      split at h
      · simp only [Option.some.injEq] at h
        subst h
        simp only [stepsLeft, hd, DPhase.weight]
        omega
      · simp at h
    · simp at h
  | dRecv =>
    simp only [step] at h
    split at h
    · rename_i j r rest hd hout
      split at h
      · rename_i hj
        simp only [Option.some.injEq] at h
        subst h
        simp only [stepsLeft, hd, DPhase.weight]
        omega
      · simp at h
    · simp at h
  | dFinish =>
    simp only [step] at h
    split at h
    · rename_i j hd
      split at h
      · simp at h
      · simp only [Option.some.injEq] at h
        subst h
        simp only [stepsLeft, hd, DPhase.weight]
        omega
    · simp at h
  | wBorn i t =>
    simp only [step] at h
    split at h
    · rename_i w hget
      split at h
      · rename_i hph
        simp only [Option.some.injEq] at h
        subst h
        have h1 := sum_map_set_sub (fun w : Worker => w.phase.weight)
          { w with phase := WPhase.ranging, r := result.new t } w 1
          (by simp [WPhase.weight, hph]) s.workers i hget
        simp only [stepsLeft] at h1 ⊢
        omega
      · simp at h
    · simp at h
  | wSelect i t =>
    simp only [step] at h
    split at h
    · rename_i w hget
      split at h
      · rename_i line hph
        split at h
        · unfold terminate at h
          split at h
          · simp only [Option.some.injEq] at h
            subst h
            have h1 := sum_map_set_sub (fun w : Worker => w.phase.weight)
              { phase := WPhase.terminated, r := { w.r with end_ := t }, sig := false,
                trace := w.trace ++ [Effect.send { w.r with end_ := t }, Effect.done] } w 3
              (by simp [WPhase.weight, hph]) s.workers i hget
            simp only [stepsLeft] at h1 ⊢
            omega
          · simp at h
        · simp only [Option.some.injEq] at h
          subst h
          have h1 := sum_map_set_sub (fun w : Worker => w.phase.weight)
            { w with phase := WPhase.executing line } w 1
            (by simp [WPhase.weight, hph]) s.workers i hget
          simp only [stepsLeft] at h1 ⊢
          omega
      · simp at h
    · simp at h
  | wExec i elapsed failed =>
    simp only [step] at h
    split at h
    · rename_i w hget
      split at h
      · rename_i line hph
        simp only [Option.some.injEq] at h
        subst h
        have h1 := sum_map_set_sub (fun w : Worker => w.phase.weight)
          { w with phase := WPhase.ranging, r := w.r.afterExec elapsed failed,
                   trace := w.trace ++ bodyEffects i s.pause s.debugMode line failed } w 1
          (by simp [WPhase.weight, hph]) s.workers i hget
        simp only [stepsLeft] at h1 ⊢
        omega
      · simp at h
    · simp at h
  | wExit i t =>
    simp only [step] at h
    split at h
    · rename_i w hget
      split at h
      · rename_i hph
        unfold terminate at h
        split at h
        · simp only [Option.some.injEq] at h
          subst h
          have h1 := sum_map_set_sub (fun w : Worker => w.phase.weight)
            { phase := WPhase.terminated, r := { w.r with end_ := t }, sig := w.sig,
              trace := w.trace ++ [Effect.send { w.r with end_ := t }, Effect.done] } w 1
            (by simp [WPhase.weight, hph.1]) s.workers i hget
          simp only [stepsLeft] at h1 ⊢
          omega
        · simp at h
      · simp at h
    · simp at h

theorem exists_running (ws : List Worker) (h : terminatedCount ws < ws.length) :
    ∃ (i : Nat) (w : Worker), ws[i]? = some w ∧ w.phase ≠ WPhase.terminated := by
  induction ws with
  | nil => simp at h
  | cons w ws ih =>
    by_cases hw : w.phase = WPhase.terminated
    · have h1 : terminatedCount ws < ws.length := by
        unfold terminatedCount at h ⊢
        simp only [List.map_cons, List.sum_cons, hw, if_true, List.length_cons] at h
        omega
      obtain ⟨i, w1, hi, hw1⟩ := ih h1
      exact ⟨i + 1, w1, by rw [List.getElem?_cons_succ]; exact hi, hw1⟩
    · exact ⟨0, w, List.getElem?_cons_zero, hw⟩

theorem enabled_of_isSome (s : Sys) (e : Event) (he : e.isProcess = true)
    (h : (step s e).isSome = true) : ∃ e s1, e.isProcess = true ∧ step s e = some s1 := by
  obtain ⟨s1, hs⟩ := Option.isSome_iff_exists.1 h
  exact ⟨e, s1, he, hs⟩

/-- A worker that has not returned can step, once the queue is closed or while
it is not waiting for a statement. -/
theorem worker_can_step (s : Sys) (hinv : Inv s) (hc : Clean s) (i : Nat) (w : Worker)
    (hget : s.workers[i]? = some w) (hw : w.phase ≠ WPhase.terminated)
    (hr : w.phase = WPhase.ranging → s.closed = true) :
    ∃ e s1, e.isProcess = true ∧ step s e = some s1 := by
  have hsig := hc.nosig w (mem_of_getElem? _ _ _ hget)
  have hroom := Inv_room hinv i w hget hw
  cases hph : w.phase with
  | born =>
    exact enabled_of_isSome s (Event.wBorn i 0) rfl (by simp [step, hget, hph])
  | ranging =>
    exact enabled_of_isSome s (Event.wExit i 0) rfl
      (by simp [step, hget, hph, hr hph, terminate, hroom])
  | selecting line =>
    exact enabled_of_isSome s (Event.wSelect i 0) rfl (by simp [step, hget, hph, hsig])
  | executing line =>
    exact enabled_of_isSome s (Event.wExec i 0 false) rfl (by simp [step, hget, hph])
  | terminated => exact absurd hph hw

/-- No state of a run with at least one worker is stuck before `main` is
finished. -/
theorem progress (s : Sys) (hinv : Inv s) (hc : Clean s) (hn : 1 ≤ s.workerCount)
    (hd : s.dphase ≠ DPhase.finished) :
    ∃ e s1, e.isProcess = true ∧ step s e = some s1 := by
  cases hph : s.dphase with
  | reading =>
    refine enabled_of_isSome s Event.dRead rfl ?_
    simp only [step, hph]
    split <;> rfl
  | pushing line =>
    have hcl : s.closed = false := by rw [hc.closedEq, hph]; rfl
    have hlen := hinv.len
    obtain ⟨w, hget⟩ : ∃ w, s.workers[0]? = some w := by
      cases hws : s.workers with
      | nil => rw [hws] at hlen; simp at hlen; omega
      | cons w ws => exact ⟨w, List.getElem?_cons_zero⟩
    have hw := hc.opened hcl w (mem_of_getElem? _ _ _ hget)
    by_cases hr : w.phase = WPhase.ranging
    · exact enabled_of_isSome s (Event.dPush 0) rfl (by simp [step, hph, hget, hr])
    · exact worker_can_step s hinv hc 0 w hget hw (fun h => absurd h hr)
  | closing => exact enabled_of_isSome s Event.dClose rfl (by simp [step, hph])
  | waiting =>
    have hcl : s.closed = true := by rw [hc.closedEq, hph]; rfl
    by_cases hwg : s.wg = 0
    · exact enabled_of_isSome s Event.dWait rfl (by simp [step, hph, hwg])
    · have h1 := hinv.wg
      have h2 := terminatedCount_le s.workers
      have h3 := hinv.len
      obtain ⟨i, w, hget, hw⟩ := exists_running s.workers (by omega)
      exact worker_can_step s hinv hc i w hget hw (fun _ => hcl)
  | reporting i =>
    by_cases hi : i < s.workerCount
    · have hrep := hinv.rep i hph
      have hcount := hinv.count
      cases hout : s.outputChan with
      | nil =>
        rw [hout] at hcount
        simp only [List.length_nil] at hcount
        omega
      | cons r rest =>
        exact enabled_of_isSome s Event.dRecv rfl (by simp [step, hph, hout, hi])
    · exact enabled_of_isSome s Event.dFinish rfl (by simp [step, hph, hi])
  | finished => exact absurd hph hd

/-- From every state of a run with at least one worker, steps of `main` and
the workers lead to the end of `main`. -/
theorem completion : ∀ (k : Nat) (s : Sys), stepsLeft s ≤ k → Inv s → Clean s →
    1 ≤ s.workerCount →
    ∃ evs s2, (∀ e ∈ evs, e.isProcess = true) ∧ run s evs = some s2 ∧
      s2.dphase = DPhase.finished := by
  intro k
  induction k with
  | zero =>
    intro s hk hinv hc hn
    by_cases hd : s.dphase = DPhase.finished
    · exact ⟨[], s, by simp, rfl, hd⟩
    · obtain ⟨e, s1, he, hs⟩ := progress s hinv hc hn hd
      have := step_stepsLeft s s1 e he hs
      omega
  | succ k ih =>
    intro s hk hinv hc hn
    by_cases hd : s.dphase = DPhase.finished
    · exact ⟨[], s, by simp, rfl, hd⟩
    · obtain ⟨e, s1, he, hs⟩ := progress s hinv hc hn hd
      have hlt := step_stepsLeft s s1 e he hs
      obtain ⟨evs, s2, h1, h2, h3⟩ := ih s1 (by omega) (Inv_step hinv e hs) (Clean_step hc e hs)
        (by rw [step_workerCount s s1 e hs]; exact hn)
      refine ⟨e :: evs, s2, ?_, ?_, h3⟩
      · intro x hx
        rcases List.mem_cons.1 hx with h | h
        · exact h ▸ he
        · exact h1 x h
      · simp only [run, hs, Option.bind_some]
        exact h2

/-- The records of the workers that have returned, as a list. -/
theorem records_of_terminated (ws : List Worker) :
    (ws.map (fun w =>
        if w.phase = WPhase.terminated then ({w.r} : Multiset result) else 0)).sum
      = Multiset.ofList
          ((ws.filter (fun w => decide (w.phase = WPhase.terminated))).map (fun w => w.r)) := by
  induction ws with
  | nil => rfl
  | cons w ws ih =>
    by_cases hw : w.phase = WPhase.terminated
    · simp only [List.map_cons, List.sum_cons, ih, hw, if_true, decide_True,
        List.filter_cons_of_pos]
      rfl
    · simp only [List.map_cons, List.sum_cons, ih, hw, if_false, zero_add]
      rw [List.filter_cons_of_neg (by simpa using hw)]

theorem startWorker_dones (workerNum : Nat) (pause : Int) (debugMode : Bool)
    (clock : Nat → Int) (items : List Item) :
    dones (startWorker workerNum pause debugMode clock items).trace = 1 := by
  rw [startWorker_trace, dones_append, bodyEffects_dones]
  simp [dones]

/-- While no `select` has found a signal, the loop has sent nothing. -/
theorem rangeLoop_running (workerNum : Nat) (pause : Int) (debugMode : Bool)
    (clock : Nat → Int) (items : List Item) (h : ∀ it ∈ items, it.sig = false) :
    emitted (rangeLoop workerNum pause debugMode clock (startState clock) items).1.trace = [] ∧
    dones (rangeLoop workerNum pause debugMode clock (startState clock) items).1.trace = 0 := by
  have hany : items.any (fun it => it.sig) = false := by
    simp only [List.any_eq_false]
    intro it hit
    simp [h it hit]
  rw [rangeLoop_eq]
  simp only [hany, Bool.false_eq_true, if_false, foldl_body_trace, emitted_append,
    dones_append, bodyEffects_emitted, bodyEffects_dones]
  simp [startState, emitted, dones]

theorem first_delim (d : Char) (l : List Char) :
    d ∉ l ∨ ∃ seg rest : List Char, d ∉ seg ∧ l = seg ++ d :: rest := by
  induction l with
  | nil => exact Or.inl (by simp)
  | cons c cs ih =>
    by_cases hc : c = d
    · exact Or.inr ⟨[], cs, by simp, by simp [hc]⟩
    · rcases ih with h | ⟨seg, rest, h1, h2⟩
      · left
        simp only [List.mem_cons, not_or]
        exact ⟨fun e => hc e.symm, h⟩
      · right
        refine ⟨c :: seg, rest, ?_, by simp [h2]⟩
        simp only [List.mem_cons, not_or]
        exact ⟨fun e => hc e.symm, h1⟩

/-- One call of `ReadString` takes the first newline-terminated line off the
text, if there is one. -/
theorem specTerminatedLines_read (l : List Char) :
    ((ReadString '\n' l).2.1 = false →
      specTerminatedLines l = TrimRight (ReadString '\n' l).1 ['\r', '\n']
        :: specTerminatedLines (ReadString '\n' l).2.2) ∧
    ((ReadString '\n' l).2.1 = true → specTerminatedLines l = []) := by
  rcases first_delim '\n' l with h | ⟨seg, rest, h1, h2⟩
  · rw [ReadString_eof '\n' l h]
    refine ⟨fun hf => by simp at hf, fun _ => ?_⟩
    simp [specTerminatedLines, rawTerminatedLines_tail l [] h]
  · subst h2
    rw [ReadString_delim '\n' seg rest h1]
    refine ⟨fun _ => ?_, fun hf => by simp at hf⟩
    simp only [specTerminatedLines, rawTerminatedLines_segment seg rest [] h1, List.nil_append,
      List.map_cons, stripTerminators_eq_TrimRight]

theorem Dispatched_init (n : Nat) (pause : Int) (debugMode : Bool) (input : List Char) :
    Dispatched input (init n pause debugMode input) := by
  simp [Dispatched, init, pushed, DPhase.toPush]

/-- Every step keeps the account of the pushed statements. -/
theorem Dispatched_step (input : List Char) {s s1 : Sys} (hd : Dispatched input s) (e : Event)
    (h : step s e = some s1) : Dispatched input s1 := by
  unfold Dispatched at hd ⊢
  cases e with
  | interrupt =>
    simp only [step, Option.some.injEq] at h
    exact h ▸ hd
  | dRead =>
    simp only [step] at h
    split at h
    · rename_i hph
      have hrd := specTerminatedLines_read s.stdin
      rw [hph] at hd
      simp only [DPhase.toPush] at hd
      split at h
      · rename_i hf
        simp only [Option.some.injEq] at h
        subst h
        simp only [DPhase.toPush]
        rw [hd, hrd.1 hf]
      · rename_i hf
        simp only [Option.some.injEq] at h
        subst h
        simp only [DPhase.toPush, pushed_append, List.append_nil]
        rw [hd, hrd.2 (by simpa using hf)]
        cases s.debugMode <;> simp [pushed]
    · simp at h
  | dPush i =>
    simp only [step] at h
    split at h
    · rename_i line w hph hget
      rw [hph] at hd
      simp only [DPhase.toPush] at hd
      split at h
      · simp only [Option.some.injEq] at h
        subst h
        simp only [DPhase.toPush, pushed_append, pushed]
        rw [hd]
        simp
      · simp at h
    · simp at h
  | dClose =>
    simp only [step] at h
    split at h
    · rename_i hph
      rw [hph] at hd
      simp only [DPhase.toPush] at hd
      simp only [Option.some.injEq] at h
      subst h
      simp only [DPhase.toPush, pushed_append, pushed]
      rw [hd]
      simp
    · simp at h
  | dWait =>
    simp only [step] at h
    split at h
    · rename_i hph
      rw [hph] at hd
      split at h
      · simp only [Option.some.injEq] at h
        subst h
        exact hd
      · simp at h
    · simp at h
  | dRecv =>
    simp only [step] at h
    split at h
    · rename_i j r rest hph hout
      rw [hph] at hd
      split at h
      · simp only [Option.some.injEq] at h
        subst h
        exact hd
      · simp at h
    · simp at h
  | dFinish =>
    simp only [step] at h
    split at h
    · rename_i j hph
      rw [hph] at hd
      split at h
      · simp at h
      · simp only [Option.some.injEq] at h
        subst h
        exact hd
    · simp at h
  | wBorn i t =>
    simp only [step] at h
    (repeat' split at h) <;>
      first
        | (simp only [Option.some.injEq] at h; subst h; exact hd)
        | simp at h
  | wSelect i t =>
    simp only [step, terminate] at h
    (repeat' split at h) <;>
      first
        | (simp only [Option.some.injEq] at h; subst h; exact hd)
        | simp at h
  | wExec i elapsed failed =>
    simp only [step] at h
    (repeat' split at h) <;>
      first
        | (simp only [Option.some.injEq] at h; subst h; exact hd)
        | simp at h
  | wExit i t =>
    simp only [step, terminate] at h
    (repeat' split at h) <;>
      first
        | (simp only [Option.some.injEq] at h; subst h; exact hd)
        | simp at h

theorem Dispatched_run (input : List Char) (evs : List Event) :
    ∀ s s2 : Sys, Dispatched input s → run s evs = some s2 → Dispatched input s2 := by
  induction evs with
  | nil =>
    intro s s2 hd h
    simp only [run, Option.some.injEq] at h
    exact h ▸ hd
  | cons e es ih =>
    intro s s2 hd h
    obtain ⟨s1, h1, h2⟩ := run_cons s s2 e es h
    exact ih s1 s2 (Dispatched_step input hd e h1) h2

/-! ### Claims on the dispatcher -/

/-- C6, as stated, fails: on the input `a` (one line without a final newline)
`main` pushes nothing and counts nothing, while the text has the line `a`. -/
theorem C6_unterminated_line_not_pushed :
    specLines ['a'] = [['a']] ∧
      (main false ['a']).map (fun st => (pushed st.trace, st.totalWorkCount)) = some ([], 0) ∧
      ¬ ((main false ['a']).map (fun st => pushed st.trace) = some (specLines ['a'])) := by
  decide

/-- C6, amended: for every input text `main` returns, and the statements it
pushes are, in order, the newline-terminated lines of the text with their
terminators stripped; `totalWorkCount` is the number of those lines. -/
theorem C6_pushes_terminated_lines (debugMode : Bool) (input : List Char) :
    ∃ st, main debugMode input = some st ∧
      pushed st.trace = specTerminatedLines input ∧
      st.totalWorkCount = (specTerminatedLines input).length := by
  obtain ⟨segs, tail, h1, h2, h3⟩ := segments_exist '\n' input
  refine ⟨_, h1 ▸ main_segments debugMode segs tail h2 h3, ?_, ?_⟩
  · simp only [specTerminatedLines, h1, rawTerminatedLines_segments segs tail h2 h3,
      pushed_append, List.map_map]
    have : pushed (if debugMode then [DEffect.logEOF] else []) = [] := by
      cases debugMode <;> rfl
    rw [this]
    have e : List.map (fun seg => DEffect.push (TrimRight (seg ++ ['\n']) ['\r', '\n'])) segs
        = (segs.map (fun seg => TrimRight (seg ++ ['\n']) ['\r', '\n'])).map DEffect.push := by
      simp
    rw [e, pushed_map_push]
    simp [pushed, Function.comp_def, stripTerminators_eq_TrimRight]
  · simp [specTerminatedLines, h1, rawTerminatedLines_segments segs tail h2 h3]

/-- C10: `main` returns on every input text; it pushes one statement per
newline character, in input order, and counts them; the statement pushed for a
newline-terminated segment is the segment without its whole trailing run of
carriage returns (so it has no newline and does not end in a carriage return,
and everything before that run is kept); an empty line is pushed as the empty
statement; the queue is closed once, after the last push. -/
theorem C10_one_push_per_newline (debugMode : Bool) (input : List Char) :
    ∃ (st : DState) (segs : List (List Char)) (tail : List Char),
      main debugMode input = some st ∧
      input = (segs.map (fun seg => seg ++ ['\n'])).flatten ++ tail ∧
      (∀ seg ∈ segs, '\n' ∉ seg) ∧ '\n' ∉ tail ∧
      (pushed st.trace).length = input.count '\n' ∧
      st.totalWorkCount = input.count '\n' ∧
      List.Forall₂
        (fun seg p => (∃ k, seg = p ++ List.replicate k '\r') ∧
          p.getLast? ≠ some '\r' ∧ '\n' ∉ p)
        segs (pushed st.trace) ∧
      (∃ pre, st.trace = pre ++ [DEffect.close] ∧ DEffect.close ∉ pre ∧
        pushed pre = pushed st.trace) ∧
      (main debugMode ['a', '\r', '\r', '\n']).map (fun st => pushed st.trace) = some [['a']] ∧
      (main debugMode ['\n']).map (fun st => (pushed st.trace, st.totalWorkCount))
        = some ([[]], 1) := by
  obtain ⟨segs, tail, h1, h2, h3⟩ := segments_exist '\n' input
  have hp : ∀ tr : List DEffect, pushed
      (segs.map (fun seg => DEffect.push (TrimRight (seg ++ ['\n']) ['\r', '\n'])) ++ tr)
      = segs.map (fun seg => TrimRight (seg ++ ['\n']) ['\r', '\n']) ++ pushed tr := by
    intro tr
    have e : List.map (fun seg => DEffect.push (TrimRight (seg ++ ['\n']) ['\r', '\n'])) segs
        = (segs.map (fun seg => TrimRight (seg ++ ['\n']) ['\r', '\n'])).map DEffect.push := by
      simp
    rw [pushed_append, e, pushed_map_push]
  have hlog : pushed (if debugMode then [DEffect.logEOF] else []) = [] := by
    cases debugMode <;> rfl
  have hcount := segments_count '\n' segs tail h2 h3
  refine ⟨_, segs, tail, h1 ▸ main_segments debugMode segs tail h2 h3, h1, h2, h3,
    ?_, ?_, ?_, ?_, ?_, ?_⟩
  · simp only [List.append_assoc, hp, pushed_append, hlog]
    simp [pushed, h1, hcount]
  · simp [h1, hcount]
  · simp only [List.append_assoc, hp, pushed_append, hlog]
    simp only [pushed, List.append_nil]
    clear h1 hp hcount
    induction segs with
    | nil => exact List.Forall₂.nil
    | cons s ss ih =>
      exact List.Forall₂.cons (TrimRight_segment s (h2 s (by simp)))
        (ih (fun seg hseg => h2 seg (by simp [hseg])))
  · refine ⟨_, rfl, ?_, ?_⟩
    · cases debugMode <;> simp
    · simp [pushed_append, pushed]
  · cases debugMode <;> decide
  · cases debugMode <;> decide

/-! ### Claims on one worker -/

/-- C4: a worker that observes no cancellation and receives `k` statements
sends exactly one record, with `workCount = k` (failed attempts included),
`errors` the number of failed executions and `dbTime` the sum of the `k`
elapsed times; it executes all `k` statements in order, whatever fails; when
all executions fail `workCount = errors = k`, and when `k = 0` the three fields
are zero. -/
theorem C4_result_without_cancellation (workerNum : Nat) (pause : Int) (debugMode : Bool)
    (clock : Nat → Int) (items : List Item) (h : ∀ it ∈ items, it.sig = false) :
    ∃ r : result,
      emitted (startWorker workerNum pause debugMode clock items).trace = [r] ∧
      r.workCount = items.length ∧
      r.errors = items.countP (fun it => it.failed) ∧
      r.dbTime = ((List.range items.length).map (elapsedAt clock)).sum ∧
      execs (startWorker workerNum pause debugMode clock items).trace
        = items.map (fun it => it.line) ∧
      ((∀ it ∈ items, it.failed = true) → r.workCount = items.length ∧ r.errors = items.length) ∧
      (items = [] → r.workCount = 0 ∧ r.errors = 0 ∧ r.dbTime = 0) := by
  obtain ⟨-, -, h3, h4, h5⟩ := startWorker_record workerNum pause debugMode clock items
  have hex := startWorker_execs workerNum pause debugMode clock items
  rw [executed_of_no_signal items h] at h3 h4 h5 hex
  refine ⟨(startWorker workerNum pause debugMode clock items).r,
    startWorker_emitted workerNum pause debugMode clock items, h3, h4, h5, hex, ?_, ?_⟩
  · intro hall
    refine ⟨h3, ?_⟩
    rw [h4]
    have : items.countP (fun it => it.failed) = items.length :=
      List.countP_eq_length.2 (fun it hit => hall it hit)
    rw [this]
  · intro hnil
    subst hnil
    simp [h3, h4, h5]

/-- Witness of C4: three statements, the second one fails. -/
theorem C4_result_without_cancellation_witness :
    (∀ it ∈ [Item.mk ['a'] false false, Item.mk ['b'] false true, Item.mk ['c'] false false],
        it.sig = false) ∧
    ∃ r : result,
      emitted (startWorker 0 0 false (fun n => (n : Int))
        [Item.mk ['a'] false false, Item.mk ['b'] false true, Item.mk ['c'] false false]).trace
          = [r] ∧
      r.workCount = 3 ∧ r.errors = 1 :=
  ⟨by decide,
   by
    obtain ⟨r, h1, h2, h3, -⟩ := C4_result_without_cancellation 0 0 false (fun n => (n : Int))
      [Item.mk ['a'] false false, Item.mk ['b'] false true, Item.mk ['c'] false false]
      (by decide)
    exact ⟨r, h1, by simpa using h2, by simpa [List.countP_cons] using h3⟩⟩

/-- C5: in the record of a worker `0 <= errors <= workCount` holds after every
loop iteration (the state the loop has reached after any number of received
statements) and in every record that `startWorker` sends, on the
queue-exhaustion path and on the cancellation path. -/
theorem C5_errors_le_workCount (workerNum : Nat) (pause : Int) (debugMode : Bool)
    (clock : Nat → Int) (items : List Item) :
    (∀ k : Nat,
      0 ≤ (rangeLoop workerNum pause debugMode clock (startState clock) (items.take k)).1.r.errors ∧
      (rangeLoop workerNum pause debugMode clock (startState clock) (items.take k)).1.r.errors
        ≤ (rangeLoop workerNum pause debugMode clock (startState clock)
            (items.take k)).1.r.workCount) ∧
    (∃ r, emitted (startWorker workerNum pause debugMode clock items).trace = [r]) ∧
    (∀ r ∈ emitted (startWorker workerNum pause debugMode clock items).trace,
      0 ≤ r.errors ∧ r.errors ≤ r.workCount ∧ 0 ≤ r.workCount) := by
  have key : ∀ ex : List Item,
      0 ≤ (ex.foldl (body workerNum pause debugMode clock) (startState clock)).r.errors ∧
      (ex.foldl (body workerNum pause debugMode clock) (startState clock)).r.errors
        ≤ (ex.foldl (body workerNum pause debugMode clock) (startState clock)).r.workCount := by
    intro ex
    obtain ⟨-, -, h3, h4, -, -⟩ :=
      foldl_body_record workerNum pause debugMode clock ex (startState clock)
    have hle : ex.countP (fun it => it.failed) ≤ ex.length := List.countP_le_length _
    rw [h3, h4]
    simp only [startState, result.new]
    omega
  refine ⟨?_, ⟨_, startWorker_emitted workerNum pause debugMode clock items⟩, ?_⟩
  · intro k
    rw [rangeLoop_eq]
    by_cases hc : (items.take k).any (fun it => it.sig) = true
    · simp only [hc, if_true, emit]
      exact key _
    · simp only [hc]
      exact key _
  · intro r hr
    rw [startWorker_emitted] at hr
    have hr1 : r = (startWorker workerNum pause debugMode clock items).r := by simpa using hr
    obtain ⟨-, -, h3, h4, -⟩ := startWorker_record workerNum pause debugMode clock items
    have hle : (executed items).countP (fun it => it.failed) ≤ (executed items).length :=
      List.countP_le_length _
    rw [hr1, h3, h4]
    omega

/-- C7: when successive clock readings are non-decreasing, the one record a
worker sends has `start <= end`: `start` is the first reading, `end` the last
one, made after the two readings of every executed statement, on both paths;
so `end - start` is not negative. -/
theorem C7_start_le_end (workerNum : Nat) (pause : Int) (debugMode : Bool)
    (clock : Nat → Int) (items : List Item) (hmono : ∀ i j : Nat, i ≤ j → clock i ≤ clock j) :
    ∃ r : result,
      emitted (startWorker workerNum pause debugMode clock items).trace = [r] ∧
      r.start = clock 0 ∧
      r.end_ = clock (2 * (executed items).length + 1) ∧
      r.start ≤ r.end_ ∧ 0 ≤ r.end_ - r.start := by
  obtain ⟨h1, h2, -⟩ := startWorker_record workerNum pause debugMode clock items
  have hle : (startWorker workerNum pause debugMode clock items).r.start
      ≤ (startWorker workerNum pause debugMode clock items).r.end_ := by
    rw [h1, h2]
    exact hmono _ _ (Nat.zero_le _)
  exact ⟨_, startWorker_emitted workerNum pause debugMode clock items, h1, h2, hle,
    by omega⟩

/-- Witness of C7: the clock that advances by one at every reading, a worker
cancelled at its second statement. -/
theorem C7_start_le_end_witness :
    (∀ i j : Nat, i ≤ j → (fun n : Nat => (n : Int)) i ≤ (fun n : Nat => (n : Int)) j) ∧
    ∃ r : result,
      emitted (startWorker 0 0 false (fun n : Nat => (n : Int))
        [Item.mk ['a'] false false, Item.mk ['b'] true false]).trace = [r] ∧
      r.start ≤ r.end_ :=
  ⟨fun i j h => by simpa using h,
   by
    obtain ⟨r, h1, -, -, h4, -⟩ := C7_start_le_end 0 0 false (fun n : Nat => (n : Int))
      [Item.mk ['a'] false false, Item.mk ['b'] true false] (fun i j h => by simpa using h)
    exact ⟨r, h1, h4⟩⟩

/-- C9: in the trace of every worker run each successful execution is
followed at once by a sleep of the pause interval and a failed execution by
none (by the log line in debug mode, or by nothing); so the number of sleeps
is `workCount - errors` of the record sent and the requested sleep time is
`pause * (workCount - errors)`. -/
theorem C9_sleep_only_after_success (workerNum : Nat) (pause : Int) (debugMode : Bool)
    (clock : Nat → Int) (items : List Item) :
    ∃ r : result,
      emitted (startWorker workerNum pause debugMode clock items).trace = [r] ∧
      (startWorker workerNum pause debugMode clock items).trace =
        ((executed items).map (fun it =>
          if it.failed then
            Effect.exec it.line :: (if debugMode then [Effect.logErr workerNum it.line] else [])
          else [Effect.exec it.line, Effect.sleep pause])).flatten
        ++ [Effect.send r, Effect.done] ∧
      ((sleeps (startWorker workerNum pause debugMode clock items).trace).length : Int)
        = r.workCount - r.errors ∧
      (∀ d ∈ sleeps (startWorker workerNum pause debugMode clock items).trace, d = pause) ∧
      (sleeps (startWorker workerNum pause debugMode clock items).trace).sum
        = pause * (r.workCount - r.errors) := by
  obtain ⟨-, -, h3, h4, -⟩ := startWorker_record workerNum pause debugMode clock items
  have hle : (executed items).countP (fun it => it.failed) ≤ (executed items).length :=
    List.countP_le_length _
  have hs := startWorker_sleeps workerNum pause debugMode clock items
  refine ⟨_, startWorker_emitted workerNum pause debugMode clock items, ?_, ?_, ?_, ?_⟩
  · rw [startWorker_trace]
    rfl
  · rw [hs, h3, h4, List.length_replicate]
    omega
  · intro d hd
    rw [hs] at hd
    exact (List.mem_replicate.1 hd).2
  · rw [hs, h3, h4, List.sum_replicate]
    simp only [nsmul_eq_mul]
    rw [Nat.cast_sub hle]
    ring

/-! ### Claims on the whole process -/

/-- C1: in every run without interrupt, for every worker count and input,
once all workers have returned: there are as many emitted records as workers,
one per worker; the sum of their `workCount` is `totalWorkCount`, the number of
statements pushed; the executed statements are the pushed ones, each once; and
the sum of their `errors` is the number of executions that failed. -/
theorem C1_work_is_conserved (n : Nat) (pause : Int) (debugMode : Bool) (input : List Char)
    (evs : List Event) (s : Sys)
    (hno : Event.interrupt ∉ evs)
    (hrun : run (init n pause debugMode input) evs = some s)
    (hterm : ∀ w ∈ s.workers, w.phase = WPhase.terminated) :
    (s.received ++ s.outputChan).length = n ∧
    (∀ w ∈ s.workers, emitted w.trace = [w.r]) ∧
    ((s.received ++ s.outputChan).map (fun r => r.workCount)).sum = s.totalWorkCount ∧
    s.totalWorkCount = (pushed s.dtrace).length ∧
    (s.execLog.map Prod.fst).Perm (pushed s.dtrace) ∧
    ((s.received ++ s.outputChan).map (fun r => r.errors)).sum
      = s.execLog.countP (fun x => x.2) := by
  have hinv : Inv s := Inv_run (Inv_init n pause debugMode input) evs s hrun
  have hc : Clean s := Clean_run (Clean_init n pause debugMode input) evs s hrun
  have hn : s.workerCount = n := run_workerCount evs _ s hrun
  have htc : terminatedCount s.workers = n := by
    rw [length_of_all_terminated s.workers hterm, hinv.len, hn]
  have hheld := hc.held
  rw [held_sum_of_terminated s.workers hterm, add_zero] at hheld
  have hperm : (s.execLog.map Prod.fst).Perm (pushed s.dtrace) := Multiset.coe_eq_coe.1 hheld
  have hlen : s.execLog.length = (pushed s.dtrace).length := by
    simpa using hperm.length_eq
  refine ⟨?_, fun w hw => ((hinv.traces w hw).1 (hterm w hw)).1, ?_, hinv.total, hperm, ?_⟩
  · rw [List.length_append, hinv.count, htc]
  · rw [hinv.sums, sum_of_terminated _ s.workers hterm, hinv.work, hinv.total, hlen]
  · rw [hinv.sums, sum_of_terminated _ s.workers hterm, hinv.errs]

/-- Witness of C1: two workers, four statements, two of which fail. -/
theorem C1_work_is_conserved_witness :
    Event.interrupt ∉ scenarioRun ∧
    run (init 2 0 false fourLines) scenarioRun = some scenarioFinal ∧
    (∀ w ∈ scenarioFinal.workers, w.phase = WPhase.terminated) ∧
    ((scenarioFinal.received ++ scenarioFinal.outputChan).length = 2 ∧
    (∀ w ∈ scenarioFinal.workers, emitted w.trace = [w.r]) ∧
    ((scenarioFinal.received ++ scenarioFinal.outputChan).map (fun r => r.workCount)).sum
      = scenarioFinal.totalWorkCount ∧
    scenarioFinal.totalWorkCount = (pushed scenarioFinal.dtrace).length ∧
    (scenarioFinal.execLog.map Prod.fst).Perm (pushed scenarioFinal.dtrace) ∧
    ((scenarioFinal.received ++ scenarioFinal.outputChan).map (fun r => r.errors)).sum
      = scenarioFinal.execLog.countP (fun x => x.2)) :=
  ⟨by decide, by decide, by decide,
   C1_work_is_conserved 2 0 false fourLines scenarioRun scenarioFinal
     (by decide) (by decide) (by decide)⟩

/-- C2: with at least one worker (in particular one worker and ten statements,
the interrupt arriving after two were dispatched) the process reaches the
final report without hanging. In every state of every run: an interrupt
changes nothing, since no signal channel is ever ready; while `main` waits in
a push no worker has returned; before `main` is finished some step of `main`
or of a worker is enabled; every such step lowers `stepsLeft`, so they cannot
go on for ever; such steps lead to the end of `main`; and when `main` is
finished it has pushed every newline-terminated line of the input and has
received one record per worker, whose `workCount` sum to `totalWorkCount`, the
number of those lines. -/
theorem C2_report_is_reached (n : Nat) (pause : Int) (debugMode : Bool) (input : List Char)
    (evs : List Event) (s : Sys) (hn : 1 ≤ n)
    (hrun : run (init n pause debugMode input) evs = some s) :
    step s Event.interrupt = some s ∧
    (∀ w ∈ s.workers, w.sig = false) ∧
    (∀ line, s.dphase = DPhase.pushing line →
      s.workers ≠ [] ∧ ∀ w ∈ s.workers, w.phase ≠ WPhase.terminated) ∧
    (s.dphase ≠ DPhase.finished → ∃ e s1, e.isProcess = true ∧ step s e = some s1) ∧
    (∀ e s1, e.isProcess = true → step s e = some s1 → stepsLeft s1 < stepsLeft s) ∧
    (∃ evs2 s2, (∀ e ∈ evs2, e.isProcess = true) ∧ run s evs2 = some s2 ∧
      s2.dphase = DPhase.finished) ∧
    (s.dphase = DPhase.finished →
      s.received.length = n ∧ s.outputChan = [] ∧
      pushed s.dtrace = specTerminatedLines input ∧
      s.totalWorkCount = (specTerminatedLines input).length ∧
      (s.received.map (fun r => r.workCount)).sum = s.totalWorkCount) := by
  have hinv : Inv s := Inv_run (Inv_init n pause debugMode input) evs s hrun
  have hc : Clean s := Clean_run (Clean_init n pause debugMode input) evs s hrun
  have hwc : s.workerCount = n := run_workerCount evs _ s hrun
  have hdisp : Dispatched input s :=
    Dispatched_run input evs _ s (Dispatched_init n pause debugMode input) hrun
  refine ⟨rfl, hc.nosig, ?_, ?_, ?_, ?_, ?_⟩
  · intro line hd
    have hcl : s.closed = false := by rw [hc.closedEq, hd]; rfl
    refine ⟨fun h => ?_, hc.opened hcl⟩
    have := hinv.len
    rw [h, hwc] at this
    simp at this
    omega
  · exact progress s hinv hc (by omega)
  · intro e s1 he hs
    exact step_stepsLeft s s1 e he hs
  · exact completion (stepsLeft s) s (Nat.le_refl _) hinv hc (by omega)
  · intro hd
    obtain ⟨h1, h2⟩ := hinv.fin hd
    have hcount := hinv.count
    have hout : s.outputChan = [] := by
      apply List.eq_nil_of_length_eq_zero
      omega
    have hterm : ∀ w ∈ s.workers, w.phase = WPhase.terminated :=
      terminatedCount_eq_length s.workers (by rw [h2, hinv.len])
    have hheld := hc.held
    rw [held_sum_of_terminated s.workers hterm, add_zero] at hheld
    have hlen : s.execLog.length = (pushed s.dtrace).length := by
      simpa using (Multiset.coe_eq_coe.1 hheld).length_eq
    have hs := hinv.sums (fun r => r.workCount)
    rw [hout, List.append_nil, sum_of_terminated _ s.workers hterm, hinv.work] at hs
    have hpush : pushed s.dtrace = specTerminatedLines input := by
      unfold Dispatched at hdisp
      rw [hd] at hdisp
      simpa [DPhase.toPush] using hdisp.symm
    exact ⟨by rw [h1, hwc], hout, hpush, by rw [hinv.total, hpush],
      by rw [hs, hinv.total, hlen]⟩

/-- Witness of C2: one worker, ten statements, the interrupt after the second
one; the run ends with `main` finished and all ten statements counted. -/
theorem C2_report_is_reached_witness :
    1 ≤ 1 ∧
    run (init 1 0 false tenLines) completedRun = some completedFinal ∧
    (specTerminatedLines tenLines).length = 10 ∧
    (run (init 1 0 false tenLines) (completedRun.take 9)).map
      (fun s => s.totalWorkCount) = some 2 ∧
    completedRun[9]? = some Event.interrupt ∧
    completedFinal.totalWorkCount = 10 ∧
    (completedFinal.dphase = DPhase.finished →
      completedFinal.received.length = 1 ∧ completedFinal.outputChan = [] ∧
      pushed completedFinal.dtrace = specTerminatedLines tenLines ∧
      completedFinal.totalWorkCount = (specTerminatedLines tenLines).length ∧
      (completedFinal.received.map (fun r => r.workCount)).sum
        = completedFinal.totalWorkCount) :=
  ⟨by decide, by decide, by decide, by decide, by decide, by decide,
   (C2_report_is_reached 1 0 false tenLines completedRun completedFinal
     (by decide) (by decide)).2.2.2.2.2.2⟩

/-- C3: a worker sends exactly one record and calls `Done` exactly once when
it returns, on either way out of the loop, and nothing before. As a function
of the answers of the `select`, `startWorker` does so for every list of
statements, and the loop has sent nothing while no signal was found. In every
state of every run of the process, a worker that has returned has one send (of
its record) and one `Done` in its trace, and a worker that has not has none;
the final statements of a worker that finds the queue closed are never blocked
by a full result channel; every receive step of `main` takes the oldest record
out of the channel, so `main` holds as many records as it has made receive
steps, never more than `cfg.workers`; the records received or in the channel
are those of the workers that have returned; in iteration `i` of the report
loop `main` holds `i` records and the receive is enabled; and when `main` is
finished it has made exactly `cfg.workers` receives, the channel is empty and
the received records are those of the workers. -/
theorem C3_one_result_per_worker (n : Nat) (pause : Int) (debugMode : Bool)
    (input : List Char) (evs : List Event) (s : Sys)
    (hrun : run (init n pause debugMode input) evs = some s) :
    (∀ (workerNum : Nat) (p : Int) (d : Bool) (clock : Nat → Int) (items : List Item),
      emitted (startWorker workerNum p d clock items).trace
        = [(startWorker workerNum p d clock items).r] ∧
      dones (startWorker workerNum p d clock items).trace = 1 ∧
      ((∀ it ∈ items, it.sig = false) →
        emitted (rangeLoop workerNum p d clock (startState clock) items).1.trace = [] ∧
        dones (rangeLoop workerNum p d clock (startState clock) items).1.trace = 0)) ∧
    s.workers.length = n ∧
    (∀ w ∈ s.workers, w.phase = WPhase.terminated →
      emitted w.trace = [w.r] ∧ dones w.trace = 1) ∧
    (∀ w ∈ s.workers, w.phase ≠ WPhase.terminated →
      emitted w.trace = [] ∧ dones w.trace = 0) ∧
    (∀ (i : Nat) (w : Worker) (t : Int),
      s.workers[i]? = some w → w.phase = WPhase.ranging → s.closed = true →
      ∃ s1 w1, step s (Event.wExit i t) = some s1 ∧ s1.workers[i]? = some w1 ∧
        w1.phase = WPhase.terminated ∧ emitted w1.trace = [w1.r] ∧
        s1.outputChan = s.outputChan ++ [w1.r] ∧ s1.wg = s.wg - 1) ∧
    s.received.length = evs.count Event.dRecv ∧
    s.received.length ≤ n ∧
    (s.received ++ s.outputChan).Perm
      ((s.workers.filter (fun w => decide (w.phase = WPhase.terminated))).map (fun w => w.r)) ∧
    (∀ i, s.dphase = DPhase.reporting i →
      s.received.length = i ∧
      (i < n → ∃ r rest, s.outputChan = r :: rest ∧
        step s Event.dRecv = some { s with outputChan := rest, received := s.received ++ [r],
                                           dphase := DPhase.reporting (i + 1) })) ∧
    (s.dphase = DPhase.finished →
      evs.count Event.dRecv = n ∧ s.received.length = n ∧ s.outputChan = [] ∧
      s.received.Perm (s.workers.map (fun w => w.r))) := by
  have hinv : Inv s := Inv_run (Inv_init n pause debugMode input) evs s hrun
  have hn : s.workerCount = n := run_workerCount evs _ s hrun
  have hle := terminatedCount_le s.workers
  have hcount := hinv.count
  have hlen := hinv.len
  have hrecv : s.received.length = evs.count Event.dRecv := by
    have := run_received evs _ s hrun
    simpa [init] using this
  have hperm : (s.received ++ s.outputChan).Perm
      ((s.workers.filter (fun w => decide (w.phase = WPhase.terminated))).map (fun w => w.r)) := by
    have := hinv.records
    rw [records_of_terminated] at this
    exact Multiset.coe_eq_coe.1 this
  refine ⟨?_, by rw [hinv.len, hn], fun w hw => (hinv.traces w hw).1,
    fun w hw => (hinv.traces w hw).2, ?_, hrecv, by omega, hperm, ?_, ?_⟩
  · intro workerNum p d clock items
    exact ⟨startWorker_emitted workerNum p d clock items,
      startWorker_dones workerNum p d clock items,
      rangeLoop_running workerNum p d clock items⟩
  · intro i w t hget hph hcl
    have hroom := Inv_room hinv i w hget (by simp [hph])
    have hi : i < s.workers.length := (List.getElem?_eq_some.1 hget).1
    have hem := ((hinv.traces w (mem_of_getElem? _ _ _ hget)).2 (by simp [hph])).1
    refine ⟨{ s with
        workers := s.workers.set i
          { phase := WPhase.terminated, r := { w.r with end_ := t }, sig := w.sig,
            trace := w.trace ++ [Effect.send { w.r with end_ := t }, Effect.done] },
        outputChan := s.outputChan ++ [{ w.r with end_ := t }],
        wg := s.wg - 1 },
      { phase := WPhase.terminated, r := { w.r with end_ := t }, sig := w.sig,
        trace := w.trace ++ [Effect.send { w.r with end_ := t }, Effect.done] },
      ?_, ?_, rfl, ?_, rfl, rfl⟩
    · simp only [step, hget, hph, hcl, and_self, if_true, terminate, hroom]
    · simp [hi]
    · simp [emitted_append, hem, emitted]
  · intro i hd
    have hrep := hinv.rep i hd
    refine ⟨hrep.1, fun hi => ?_⟩
    cases hout : s.outputChan with
    | nil =>
      rw [hout] at hcount
      simp only [List.length_nil] at hcount
      omega
    | cons r rest =>
      exact ⟨r, rest, rfl, by simp only [step, hd, hout, hn, hi, if_true]⟩
  · intro hd
    obtain ⟨h1, h2⟩ := hinv.fin hd
    have hout : s.outputChan = [] := by
      apply List.eq_nil_of_length_eq_zero
      omega
    have hterm : ∀ w ∈ s.workers, w.phase = WPhase.terminated :=
      terminatedCount_eq_length s.workers (by rw [h2, hinv.len])
    have hfil : s.workers.filter (fun w => decide (w.phase = WPhase.terminated)) = s.workers :=
      List.filter_eq_self.2 (fun w hw => by simpa using hterm w hw)
    rw [hout, List.append_nil, hfil] at hperm
    exact ⟨by rw [← hrecv, h1, hn], by rw [h1, hn], hout, hperm⟩

/-- Witness of C3: two workers and one statement, up to the end of `main`,
which makes two receives. -/
theorem C3_one_result_per_worker_witness :
    run (init 2 0 false ['a', '\n']) reportRun = some reportFinal ∧
    reportFinal.dphase = DPhase.finished ∧
    (reportFinal.dphase = DPhase.finished →
      reportRun.count Event.dRecv = 2 ∧ reportFinal.received.length = 2 ∧
      reportFinal.outputChan = [] ∧
      reportFinal.received.Perm (reportFinal.workers.map (fun w => w.r))) :=
  ⟨by decide, by decide,
   (C3_one_result_per_worker 2 0 false ['a', '\n'] reportRun reportFinal
     (by decide)).2.2.2.2.2.2.2.2.2⟩

/-- C8: when the signal is first found at the check made for the statement
after `pre`, the worker has executed exactly the statements of `pre`, in
order, and neither that statement nor a later one; the one record it sends has
`workCount` the length of `pre` (at most the number of statements received),
`errors` the failures among them and `dbTime` the sum of their elapsed times.
In the process, an interrupt that arrives while a worker is in an execution
leaves the worker in that execution with its record unchanged, and the
execution then completes and is counted. -/
theorem C8_cancellation_at_item_boundary (workerNum : Nat) (pause : Int) (debugMode : Bool)
    (clock : Nat → Int) (pre post : List Item) (it : Item)
    (hpre : ∀ x ∈ pre, x.sig = false) (hit : it.sig = true) :
    (∃ r : result,
      emitted (startWorker workerNum pause debugMode clock (pre ++ it :: post)).trace = [r] ∧
      r.workCount = pre.length ∧
      r.workCount ≤ ((pre ++ [it]).length : Int) ∧
      r.errors = pre.countP (fun x => x.failed) ∧
      r.dbTime = ((List.range pre.length).map (elapsedAt clock)).sum) ∧
    execs (startWorker workerNum pause debugMode clock (pre ++ it :: post)).trace
      = pre.map (fun x => x.line) ∧
    (∀ (s : Sys) (i : Nat) (w : Worker) (line : List Char),
      s.workers[i]? = some w → w.phase = WPhase.executing line →
      ∃ s1, step s Event.interrupt = some s1 ∧
        s1.workers[i]? = some w ∧
        ∀ (elapsed : Int) (failed : Bool), ∃ s2,
          step s1 (Event.wExec i elapsed failed) = some s2 ∧
          s2.workers[i]? = some
            { phase := WPhase.ranging, r := w.r.afterExec elapsed failed, sig := w.sig,
              trace := w.trace ++ bodyEffects i s.pause s.debugMode line failed }) := by
  obtain ⟨-, -, h3, h4, h5⟩ :=
    startWorker_record workerNum pause debugMode clock (pre ++ it :: post)
  have hex := startWorker_execs workerNum pause debugMode clock (pre ++ it :: post)
  rw [executed_of_first_signal pre post it hpre hit] at h3 h4 h5 hex
  refine ⟨⟨_, startWorker_emitted workerNum pause debugMode clock _, h3, ?_, h4, h5⟩, hex, ?_⟩
  · rw [h3]
    simp
  · intro s i w line hget hph
    have hi : i < s.workers.length := (List.getElem?_eq_some.1 hget).1
    refine ⟨s, rfl, hget, ?_⟩
    intro elapsed failed
    refine ⟨{ s with
        workers := s.workers.set i
          { phase := WPhase.ranging, r := w.r.afterExec elapsed failed, sig := w.sig,
            trace := w.trace ++ bodyEffects i s.pause s.debugMode line failed },
        execLog := s.execLog ++ [(line, failed)] }, ?_, ?_⟩
    · simp only [step, hget, hph]
    · simp [hi]

/-- Witness of C8: the signal is found at the second of three statements. -/
theorem C8_cancellation_at_item_boundary_witness :
    (∀ x ∈ [Item.mk ['a'] false true], x.sig = false) ∧
    (Item.mk ['b'] true false).sig = true ∧
    execs (startWorker 0 0 false (fun n : Nat => (n : Int))
        ([Item.mk ['a'] false true] ++ Item.mk ['b'] true false :: [Item.mk ['c'] false false])).trace
      = [Item.mk ['a'] false true].map (fun x => x.line) :=
  ⟨by decide, rfl,
   (C8_cancellation_at_item_boundary 0 0 false (fun n : Nat => (n : Int))
     [Item.mk ['a'] false true] [Item.mk ['c'] false false] (Item.mk ['b'] true false)
     (by decide) rfl).2.1⟩

end Slammer
